import Mathlib

/-!
Verification of the `rust_code` repository against its specification.

Shallow embedding of:
* `data_structures/src/treap.rs` (`Treap`, its tree operations and iterator),
* `data_structures/src/skiplist/map.rs` (`SkipMap`, modelled by its bottom-level
  linked list: the higher skip levels only accelerate the search and their net
  mutation at level 0 is what determines the observable map),
* `src/lsm_tree/mod.rs` (the `Error` enum),
* the LSM storage engine (whose `map.rs`, `sstable.rs` and `compaction.rs`
  modules are not present in the source tree; those parts are modelled from the
  spec, marked `Modelled from the spec:`).

The file is organized as definitions first, then theorems.
-/

set_option maxHeartbeats 2000000
set_option maxRecDepth 100000
set_option linter.unusedSectionVars false
set_option linter.unusedVariables false
set_option linter.unnecessarySeqFocus false

namespace RustCode

/-! ## Definitions -/

/-- Lookup in an association list (first binding wins). -/
def alget {K V : Type} [DecidableEq K] : List (K × V) → K → Option V
  | [], _ => none
  | (k', v') :: rest, k => if k' = k then some v' else alget rest k

/-! ## Treap (`data_structures/src/treap.rs`)

`type Tree<T, U> = Option<Box<Node<T, U>>>` with
`Node { key, value, priority, left, right }` is embedded as an inductive tree.
Keys take an arbitrary linear order (the source is generic over `T: Ord`),
priorities are the `u32` values drawn from the random generator. -/
inductive TTree (K V : Type) where
  | nil
  | node (key : K) (value : V) (priority : Nat) (left : TTree K V) (right : TTree K V)
deriving DecidableEq

namespace TTree

variable {K V : Type} [LinearOrder K]

/-- Number of nodes. -/
def tsize : TTree K V → Nat
  | nil => 0
  | node _ _ _ l r => tsize l + tsize r + 1

/-- In-order listing of the key-value pairs (the order `TreapIterator` yields). -/
def toList : TTree K V → List (K × V)
  | nil => []
  | node k v _ l r => toList l ++ (k, v) :: toList r

/-- The keys, in order. -/
def keys (t : TTree K V) : List K := (toList t).map Prod.fst

/-- Embeds `Node::is_heap_property_violated`: the parent priority is below the child root priority. -/
def heapViolated (p : Nat) : TTree K V → Bool
  | nil => false
  | node _ _ cp _ _ => p < cp

/-- Embeds `Node::rotate_left`. -/
def rotateLeft : TTree K V → TTree K V
  | node k v p l (node rk rv rp rl rr) => node rk rv rp (node k v p l rl) rr
  | t => t

/-- Embeds `Node::rotate_right`. -/
def rotateRight : TTree K V → TTree K V
  | node k v p (node lk lv lp ll lr) r => node lk lv lp ll (node k v p lr r)
  | t => t

/-- Embeds `Treap::tree_insert`: BST insertion of a node carrying priority `p`,
rotating on the way back up when the heap property is violated.  On an equal
key the stored key and value are replaced (the node keeps its old priority)
and the old pair is returned. -/
def tree_insert : TTree K V → K → V → Nat → TTree K V × Option (K × V)
  | nil, k, v, p => (node k v p nil nil, none)
  | node nk nv np l r, k, v, p =>
    if k < nk then
      let res := tree_insert l k v p
      let t' := node nk nv np res.1 r
      ((if heapViolated np res.1 then rotateRight t' else t'), res.2)
    else if nk < k then
      let res := tree_insert r k v p
      let t' := node nk nv np l res.1
      ((if heapViolated np res.1 then rotateLeft t' else t'), res.2)
    else
      (node k v np l r, some (nk, nv))

/-- Embeds `Treap::merge`: merge two trees, every key of the left below every key of
the right; the root with the larger priority wins. -/
def tmerge : TTree K V → TTree K V → TTree K V
  | nil, r => r
  | node lk lv lp ll lr, nil => node lk lv lp ll lr
  | node lk lv lp ll lr, node rk rv rp rl rr =>
    if lp > rp then node lk lv lp ll (tmerge lr (node rk rv rp rl rr))
    else node rk rv rp (tmerge (node lk lv lp ll lr) rl) rr
termination_by l r => tsize l + tsize r
decreasing_by
  · simp [tsize]; omega
  · simp [tsize]; omega

/-- Embeds `Treap::split`: split into the part below `k`, the detached node with key
`k` if present (key, value, priority), and the part above `k`. -/
def tsplit : TTree K V → K → TTree K V × Option (K × V × Nat) × TTree K V
  | nil, _ => (nil, none, nil)
  | node nk nv np l r, k =>
    if nk < k then
      let res := tsplit r k
      (node nk nv np l res.1, res.2.1, res.2.2)
    else if k < nk then
      let res := tsplit l k
      (res.1, res.2.1, node nk nv np res.2.2 r)
    else
      (l, some (nk, nv, np), r)

/-- Embeds `Treap::tree_contains`. -/
def tree_contains : TTree K V → K → Bool
  | nil, _ => false
  | node nk _ _ l r, k =>
    if k = nk then true
    else if k < nk then tree_contains l k
    else tree_contains r k

/-- Embeds `Treap::tree_get`. -/
def tree_get : TTree K V → K → Option V
  | nil, _ => none
  | node nk nv _ l r, k =>
    if k = nk then some nv
    else if k < nk then tree_get l k
    else tree_get r k

/-- Embeds `Treap::tree_union`: union of two treaps; the node with the larger priority
becomes the root, the other tree is split by its key, and the `swapped` flag
records whether the roles of the two inputs are currently exchanged (the value
of the original left operand wins on duplicate keys).  Also counts the
duplicates. -/
def tree_union : TTree K V → TTree K V → Bool → TTree K V × Nat
  | nil, r, _ => (r, 0)
  | node lk lv lp ll lr, nil, _ => (node lk lv lp ll lr, 0)
  | node lk lv lp ll lr, node rk rv rp rl rr, swapped =>
    if lp < rp then
      -- the right node has the larger priority: swap roles
      let sp := tsplit (node lk lv lp ll lr) rk
      let resl := tree_union rl sp.1 (!swapped)
      let resr := tree_union rr sp.2.2 (!swapped)
      let value := match sp.2.1 with
        | some dn => if !swapped then dn.2.1 else rv
        | none => rv
      (node rk value rp resl.1 resr.1,
        resl.2 + resr.2 + (if sp.2.1.isSome then 1 else 0))
    else
      let sp := tsplit (node rk rv rp rl rr) lk
      let resl := tree_union ll sp.1 swapped
      let resr := tree_union lr sp.2.2 swapped
      let value := match sp.2.1 with
        | some dn => if swapped then dn.2.1 else lv
        | none => lv
      (node lk value lp resl.1 resr.1,
        resl.2 + resr.2 + (if sp.2.1.isSome then 1 else 0))
termination_by l r _ => tsize l + tsize r
decreasing_by
  all_goals
    have hsz : ∀ (t : TTree K V) (k : K), tsize (tsplit t k).1 + tsize (tsplit t k).2.2 ≤ tsize t := by
      intro t k
      induction t with
      | nil => simp [tsplit, tsize]
      | node nk nv np l r ihl ihr =>
        by_cases h1 : nk < k
        · simp only [tsplit, if_pos h1, tsize]
          omega
        · by_cases h2 : k < nk
          · simp only [tsplit, if_neg h1, if_pos h2, tsize]
            omega
          · simp only [tsplit, if_neg h1, if_neg h2, tsize]
            omega
  · have h := hsz (node lk lv lp ll lr) rk
    simp only [tsize] at *
    omega
  · have h := hsz (node lk lv lp ll lr) rk
    simp only [tsize] at *
    omega
  · have h := hsz (node rk rv rp rl rr) lk
    simp only [tsize] at *
    omega
  · have h := hsz (node rk rv rp rl rr) lk
    simp only [tsize] at *
    omega

/-- The binary-search-tree invariant that every reachable treap satisfies. -/
def bstB : TTree K V → Bool
  | nil => true
  | node nk _ _ l r =>
    (keys l).all (fun x => decide (x < nk)) && (keys r).all (fun x => decide (nk < x))
      && bstB l && bstB r

/-- Insert-or-replace in a key-sorted association list. -/
def insList (k : K) (v : V) : List (K × V) → List (K × V)
  | [] => [(k, v)]
  | (k', v') :: rest =>
    if k' < k then (k', v') :: insList k v rest
    else if k' = k then (k, v) :: rest
    else (k, v) :: (k', v') :: rest

/-- Delete the first binding of `k` from an association list. -/
def delList (k : K) : List (K × V) → List (K × V)
  | [] => []
  | (k', v') :: rest => if k' = k then rest else (k', v') :: delList k rest

/-- The entry, if any, that `tsplit` detaches. -/
def optE : Option (K × V × Nat) → List (K × V)
  | none => []
  | some e => [(e.1, e.2.1)]

/-- The number of keys of `xs` that also occur in `ys`. -/
def commonCount (xs ys : List K) : Nat := (xs.filter (fun x => decide (x ∈ ys))).length

/-- Embeds `Treap::remove` at the tree level: split off the key, merge back. -/
def tree_remove (t : TTree K V) (k : K) : TTree K V × Option (K × V) :=
  let sp := tsplit t k
  (tmerge sp.1 sp.2.2, sp.2.1.map (fun e => (e.1, e.2.1)))

end TTree

/-- Embeds `Treap<T, U>`: root tree, random generator and cached size.  The external
`XorShiftRng` is modelled as an arbitrary stream of `u32` priorities indexed by
how many draws have happened. -/
structure Treap (K V : Type) where
  root : TTree K V
  rng : Nat → Nat
  cnt : Nat
  size : Nat

namespace Treap

variable {K V : Type} [LinearOrder K]

/-- Embeds `Treap::new`. -/
def new (rng : Nat → Nat) : Treap K V := ⟨.nil, rng, 0, 0⟩

/-- Embeds `Treap::insert`: draw a priority, insert, and bump the size when no old
pair was returned. -/
def insert (t : Treap K V) (k : K) (v : V) : Treap K V × Option (K × V) :=
  let p := t.rng t.cnt
  let res := TTree.tree_insert t.root k v p
  (⟨res.1, t.rng, t.cnt + 1, if res.2.isSome then t.size else t.size + 1⟩, res.2)

/-- Embeds `Treap::remove`: split out the key and merge back, decrementing the size
when a pair was removed. -/
def remove (t : Treap K V) (k : K) : Treap K V × Option (K × V) :=
  let res := TTree.tree_remove t.root k
  (⟨res.1, t.rng, t.cnt, if res.2.isSome then t.size - 1 else t.size⟩, res.2)

/-- Embeds `Treap::get`. -/
def get (t : Treap K V) (k : K) : Option V := TTree.tree_get t.root k

/-- Embeds `Treap::contains`. -/
def contains (t : Treap K V) (k : K) : Bool := TTree.tree_contains t.root k

/-- Embeds `Treap::union` (`tree_union` plus the size bookkeeping). -/
def union (l r : Treap K V) : Treap K V :=
  let res := TTree.tree_union l.root r.root false
  ⟨res.1, l.rng, l.cnt, l.size + r.size - res.2⟩

end Treap

/-- Embeds `TreapIterator`: the in-order traversal state, a current subtree plus the
explicit stack of pending nodes (for each, its key, value and right subtree —
the parts the source reads off the stacked node reference). -/
structure TreapIterator (K V : Type) where
  current : TTree K V
  stack : List (K × V × TTree K V)

namespace TreapIterator

variable {K V : Type}

/-- The `while let Some(ref node) = *self.current` loop of
`TreapIterator::next`: walk down the left spine pushing nodes. -/
def pushLeftSpine : TTree K V → List (K × V × TTree K V) → List (K × V × TTree K V)
  | .nil, st => st
  | .node k v _ l r, st => pushLeftSpine l ((k, v, r) :: st)

/-- Embeds `TreapIterator::next`: push the left spine, pop the top node, continue in
its right subtree. -/
def next (it : TreapIterator K V) : Option ((K × V) × TreapIterator K V) :=
  match pushLeftSpine it.current it.stack with
  | [] => none
  | (k, v, r) :: rest => some ((k, v), ⟨r, rest⟩)

/-- Embeds `Treap::iter`. -/
def iter (t : Treap K V) : TreapIterator K V := ⟨t.root, []⟩

/-- Exhaust the iterator from a given state. -/
def drainFrom : TTree K V → List (K × V × TTree K V) → List (K × V)
  | t, st =>
    match h : pushLeftSpine t st with
    | [] => []
    | (k, v, r) :: rest => (k, v) :: drainFrom r rest
termination_by t st => TTree.tsize t + (st.map (fun e => TTree.tsize e.2.2 + 1)).sum
decreasing_by
  have hw0 : ∀ (t : TTree K V) (st : List (K × V × TTree K V)),
      ((pushLeftSpine t st).map (fun e => TTree.tsize e.2.2 + 1)).sum
        = TTree.tsize t + (st.map (fun e => TTree.tsize e.2.2 + 1)).sum := by
    intro t
    induction t with
    | nil =>
      intro st
      simp [pushLeftSpine, TTree.tsize]
    | node k v p l r ihl ihr =>
      intro st
      rw [pushLeftSpine, ihl]
      simp [TTree.tsize]
      omega
  have hw := hw0 t st
  rw [h] at hw
  simp only [List.map_cons, List.sum_cons] at hw
  omega

/-- The sequence an iterator state still has to yield. -/
def unrollStack : List (K × V × TTree K V) → List (K × V)
  | [] => []
  | (k, v, r) :: rest => (k, v) :: (TTree.toList r ++ unrollStack rest)

end TreapIterator

/-- Embeds `SkipMap<T, U>` from `data_structures/src/skiplist/map.rs`, modelled by its
bottom-level linked list (every node is linked at level 0; the higher levels
are search accelerators whose net mutation at level 0 gives the observable
map), together with the cached size and the height generator state.  The
external `XorShiftRng` that draws tower heights is an arbitrary stream; the
drawn heights do not affect the bottom-level contents. -/
structure SkipMap (K V : Type) where
  nodes : List (K × V)
  rng : Nat → Nat
  cnt : Nat
  size : Nat

namespace SkipMap

variable {K V : Type} [LinearOrder K]

/-- Embeds `SkipMap::new`. -/
def new (rng : Nat → Nat) : SkipMap K V := ⟨[], rng, 0, 0⟩

/-- Net effect of `SkipMap::insert`'s descent at level 0: walk past smaller
keys, unlink an equal-key node (returning its pair), link the new node. -/
def insertNodes : List (K × V) → K → V → List (K × V) × Option (K × V)
  | [], k, v => ([(k, v)], none)
  | (k', v') :: rest, k, v =>
    if k' < k then
      let res := insertNodes rest k v
      ((k', v') :: res.1, res.2)
    else if k' = k then ((k, v) :: rest, some (k', v'))
    else ((k, v) :: (k', v') :: rest, none)

/-- Embeds `SkipMap::insert`: the source increments `size` up front and undoes the
increment when an equal-key node is unlinked. -/
def insert (m : SkipMap K V) (k : K) (v : V) : SkipMap K V × Option (K × V) :=
  let res := insertNodes m.nodes k v
  (⟨res.1, m.rng, m.cnt + 1, if res.2.isSome then m.size else m.size + 1⟩, res.2)

/-- Net effect of `SkipMap::remove`'s descent at level 0. -/
def removeNodes : List (K × V) → K → List (K × V) × Option (K × V)
  | [], _ => ([], none)
  | (k', v') :: rest, k =>
    if k' < k then
      let res := removeNodes rest k
      ((k', v') :: res.1, res.2)
    else if k' = k then (rest, some (k', v'))
    else ((k', v') :: rest, none)

/-- Embeds `SkipMap::remove`. -/
def remove (m : SkipMap K V) (k : K) : SkipMap K V × Option (K × V) :=
  let res := removeNodes m.nodes k
  (⟨res.1, m.rng, m.cnt, if res.2.isSome then m.size - 1 else m.size⟩, res.2)

/-- The level-0 search of `SkipMap::get`: walk past smaller keys, report an
equal key, stop at a larger one. -/
def getNodes : List (K × V) → K → Option V
  | [], _ => none
  | (k', v') :: rest, k =>
    if k' < k then getNodes rest k
    else if k' = k then some v'
    else none

/-- Embeds `SkipMap::get`. -/
def get (m : SkipMap K V) (k : K) : Option V := getNodes m.nodes k

/-- Embeds `SkipMap::contains_key` (the same search, reporting only presence). -/
def contains_key (m : SkipMap K V) (k : K) : Bool := (get m k).isSome

/-- Embeds `SkipMap::into_iter` walks the level-0 list, yielding each node's pair:
its full yield sequence is the node list itself. -/
def intoIterDrain (m : SkipMap K V) : List (K × V) := m.nodes

end SkipMap

/-- A single mutation on an in-memory ordered map. -/
inductive MapOp (K V : Type) where
  | ins (k : K) (v : V)
  | del (k : K)

namespace Treap

variable {K V : Type} [LinearOrder K]

/-- Applying one operation to a treap (ignoring the returned old pair). -/
def applyOp (t : Treap K V) : MapOp K V → Treap K V
  | .ins k v => (t.insert k v).1
  | .del k => (t.remove k).1

/-- Applying a sequence of operations, oldest first. -/
def applyOps (t : Treap K V) (ops : List (MapOp K V)) : Treap K V :=
  ops.foldl applyOp t

/-- Reachable-state invariant: the tree is a BST and the cached size counts
its entries. -/
def Inv (t : Treap K V) : Prop :=
  TTree.bstB t.root = true ∧ t.size = (TTree.toList t.root).length

end Treap

namespace SkipMap

variable {K V : Type} [LinearOrder K]

/-- Applying one operation to a skip map (ignoring the returned old pair). -/
def applyOp (m : SkipMap K V) : MapOp K V → SkipMap K V
  | .ins k v => (m.insert k v).1
  | .del k => (m.remove k).1

/-- Applying a sequence of operations, oldest first. -/
def applyOps (m : SkipMap K V) (ops : List (MapOp K V)) : SkipMap K V :=
  ops.foldl applyOp m

/-- Reachable-state invariant: the level-0 list is strictly key-sorted and the
cached size counts its nodes. -/
def Inv (m : SkipMap K V) : Prop :=
  List.Pairwise (fun a b => a.1 < b.1) m.nodes ∧ m.size = m.nodes.length

end SkipMap

/-- The `Error` enum of `src/lsm_tree/mod.rs`.  Its payloads (`io::Error`,
`bincode::Error`) are opaque external values, modelled by `Nat` codes. -/
inductive Error where
  | IOError (err : Nat)
  | SerdeError (err : Nat)
deriving DecidableEq

/-- The constructor tag of an `Error`. -/
inductive ErrorKind where
  | ioError
  | serdeError
deriving DecidableEq

/-- The kind of failure an `Error` represents. -/
def Error.kind : Error → ErrorKind
  | .IOError _ => .ioError
  | .SerdeError _ => .serdeError

/-- Embeds `impl From<io::Error> for Error`. -/
def Error.fromIOError (err : Nat) : Error := .IOError err

/-- Embeds `impl From<bincode::Error> for Error`. -/
def Error.fromSerde (err : Nat) : Error := .SerdeError err

/-- Modelled from the spec (§3, Run): an immutable sorted run of entries — a
sequence number and a key-sorted list of `(key, value-or-tombstone)` pairs
(`none` is a tombstone). -/
structure Run (K V : Type) where
  id : Nat
  entries : List (K × Option V)
deriving DecidableEq

/-- Modelled from the spec (§2, §3): the engine state — the Memory Stage (a
key-sorted association list mapping keys to value-or-tombstone), the Run
Collection ordered newest first, the next Run sequence number, and the Memory
Stage entry-count bound. -/
structure Store (K V : Type) where
  mem : List (K × Option V)
  runs : List (Run K V)
  nextId : Nat
  bound : Nat
deriving DecidableEq

namespace Store

variable {K V : Type} [LinearOrder K]

/-- Modelled from the spec (§6): `open_or_create` on a fresh directory — an
empty store. -/
def new (bound : Nat) : Store K V := ⟨[], [], 0, bound⟩

/-- Modelled from the spec (§4.5, get): probe the Runs newest-to-oldest and
report the first hit — a value or a tombstone; the newest tombstone stops the
scan. -/
def runsFind : List (Run K V) → K → Option (Option V)
  | [], _ => none
  | r :: rest, k =>
    match alget r.entries k with
    | some v => some v
    | none => runsFind rest k

/-- Modelled from the spec (§4.5, get): check the Memory Stage first (a
tombstone there is a logical miss), else scan the Run Collection
newest-to-oldest; a tombstone hit shadows all older Runs. -/
def get (s : Store K V) (k : K) : Option V :=
  match alget s.mem k with
  | some (some v) => some v
  | some none => none
  | none =>
    match runsFind s.runs k with
    | some (some v) => some v
    | some none => none
    | none => none

/-- The logical view before collapsing tombstones: the newest record for `k`,
whether value or tombstone. -/
def logical (s : Store K V) (k : K) : Option (Option V) :=
  match alget s.mem k with
  | some v => some v
  | none => runsFind s.runs k

/-- Modelled from the spec (§4.5, flush): drain the Memory Stage, sorted, into
a new Run published at the front (newest) of the Run Collection, and reset the
stage; a no-op when the stage is empty. -/
def flush (s : Store K V) : Store K V :=
  if s.mem.isEmpty then s
  else ⟨[], ⟨s.nextId, s.mem⟩ :: s.runs, s.nextId + 1, s.bound⟩

/-- Modelled from the spec (§4.1, §4.5): the engine consults `is_full` after
every mutating call and flushes when the bound is reached. -/
def maybeFlush (s : Store K V) : Store K V :=
  if s.bound ≤ s.mem.length then s.flush else s

/-- Modelled from the spec (§4.5, insert): write to the Memory Stage, then
flush if it is now full. -/
def insert (s : Store K V) (k : K) (v : V) : Store K V :=
  maybeFlush ⟨TTree.insList k (some v) s.mem, s.runs, s.nextId, s.bound⟩

/-- Modelled from the spec (§4.5, remove): write a tombstone to the Memory
Stage (no prior insert required), then flush if it is now full. -/
def remove (s : Store K V) (k : K) : Store K V :=
  maybeFlush ⟨TTree.insList k none s.mem, s.runs, s.nextId, s.bound⟩

/-- Modelled from the spec (§4.5, compact): two-way merge by key of two sorted
entry lists, the first (newer) list winning ties.  Written with an explicit
step budget so that the definition computes by structural recursion; a budget
of `xs.length + ys.length` always suffices and is what `mergeKeep` passes. -/
def mergeKeepF : Nat → List (K × Option V) → List (K × Option V) → List (K × Option V)
  | _, [], ys => ys
  | _, (k1, v1) :: xs, [] => (k1, v1) :: xs
  | 0, (k1, v1) :: xs, (k2, v2) :: ys => (k1, v1) :: xs ++ (k2, v2) :: ys
  | fuel + 1, (k1, v1) :: xs, (k2, v2) :: ys =>
    if k1 < k2 then (k1, v1) :: mergeKeepF fuel xs ((k2, v2) :: ys)
    else if k2 < k1 then (k2, v2) :: mergeKeepF fuel ((k1, v1) :: xs) ys
    else (k1, v1) :: mergeKeepF fuel xs ys

/-- Modelled from the spec (§4.5, compact): two-way merge by key, the first
(newer) list winning ties. -/
def mergeKeep (xs ys : List (K × Option V)) : List (K × Option V) :=
  mergeKeepF (xs.length + ys.length) xs ys

/-- Modelled from the spec (§4.5, compact): k-way merge of a set of Runs given
newest first, the newest Run id winning ties; tombstones participate and are
written to the output. -/
def mergeRuns (rs : List (Run K V)) (id : Nat) : Run K V :=
  ⟨id, rs.foldl (fun acc r => mergeKeep acc r.entries) []⟩

/-- Modelled from the spec (§8, compaction correctness): merge the
recency-contiguous segment of `n` Runs starting at position `i` into one Run
that takes the segment's place (keeping the newest member's id); the inputs
are removed only after the merged Run is published. -/
def compactSegment (s : Store K V) (i n : Nat) : Store K V :=
  let b := (s.runs.drop i).take n
  if b.isEmpty then s
  else
    ⟨s.mem,
      s.runs.take i
        ++ mergeRuns b ((b.head?.map Run.id).getD 0) :: (s.runs.drop i).drop n,
      s.nextId, s.bound⟩

/-- Modelled from the spec (§3): the size-tiered compaction parameters; the
ratio bounds `bucket_low` and `bucket_high` are rationals given as
numerator/denominator pairs. -/
structure SizeTieredParams where
  min_merge_width : Nat
  max_merge_width : Nat
  bucket_low_num : Nat
  bucket_low_den : Nat
  bucket_high_num : Nat
  bucket_high_den : Nat
deriving DecidableEq

/-- A Run's size (its entry count). -/
def runSize (r : Run K V) : Nat := r.entries.length

/-- Modelled from the spec (§4.4): two Runs are similarly sized when their
size ratio `a / b` lies within `[bucket_low, bucket_high]`. -/
def similarSize (p : SizeTieredParams) (a b : Nat) : Bool :=
  decide (p.bucket_low_num * b ≤ p.bucket_low_den * a
    ∧ p.bucket_high_den * a ≤ p.bucket_high_num * b)

/-- Helper for `bucketizeSorted`: walk the remaining size-sorted Runs,
growing the current bucket (opened by `first`, members so far in `acc`,
newest kept in order) while sizes stay similar to `first`, and opening a new
bucket otherwise. -/
def bucketizeGo (p : SizeTieredParams) (first : Run K V) (acc : List (Run K V)) :
    List (Run K V) → List (List (Run K V))
  | [] => [first :: acc.reverse]
  | r :: rest =>
    if similarSize p (runSize first) (runSize r) then
      bucketizeGo p first (r :: acc) rest
    else
      (first :: acc.reverse) :: bucketizeGo p r [] rest

/-- Modelled from the spec (§4.4): group the size-sorted Runs into buckets of
similarly sized Runs; each Run is compared against the first (smallest)
member of the current bucket. -/
def bucketizeSorted (p : SizeTieredParams) : List (Run K V) → List (List (Run K V))
  | [] => []
  | r :: rest => bucketizeGo p r [] rest

/-- Modelled from the spec (§4.4): the Runs the size-tiered policy selects for
one merge: sort by size, bucket, pick the smallest-size bucket holding at
least `min_merge_width` Runs, and take up to `max_merge_width` of its oldest
members (oldest first). -/
def selectMergeSet (p : SizeTieredParams) (s : Store K V) : List (Run K V) :=
  let sorted := s.runs.insertionSort (fun a b => runSize a ≤ runSize b)
  match (bucketizeSorted p sorted).find? (fun b => p.min_merge_width ≤ b.length) with
  | none => []
  | some b => (b.insertionSort (fun a b => a.id ≤ b.id)).take p.max_merge_width

/-- Modelled from the spec (§4.5, compact): run the size-tiered policy once —
merge the selected Runs (newest first, newest id winning ties) into one Run
published in place of the newest selected member, the other members removed
after publication; a no-op when the policy selects nothing. -/
def compact_once (p : SizeTieredParams) (s : Store K V) : Store K V :=
  let ms := selectMergeSet p s
  if ms.isEmpty then s
  else
    let msIds := ms.map Run.id
    let newestFirst := ms.insertionSort (fun a b => b.id ≤ a.id)
    let maxId := msIds.foldl Nat.max 0
    let merged := mergeRuns newestFirst maxId
    ⟨s.mem,
      s.runs.foldr (fun r acc =>
        if r.id = maxId then merged :: acc
        else if r.id ∈ msIds then acc
        else r :: acc) [],
      s.nextId, s.bound⟩

/-- Modelled from the spec (§8, round-trip): one test-harness operation on the
store; compaction merges a recency-contiguous segment of the Run Collection. -/
inductive StoreOp (K V : Type) where
  | ins (k : K) (v : V)
  | del (k : K)
  | flushOp
  | compactOp (i n : Nat)

/-- Apply one operation. -/
def applyOp (s : Store K V) : StoreOp K V → Store K V
  | .ins k v => s.insert k v
  | .del k => s.remove k
  | .flushOp => s.flush
  | .compactOp i n => s.compactSegment i n

/-- Apply a sequence of operations, oldest first. -/
def applyOps (s : Store K V) (ops : List (StoreOp K V)) : Store K V :=
  ops.foldl applyOp s

/-- The most recent insert or remove on `k` in `ops` (later operations win):
`some (some v)` for an insert of `v`, `some none` for a remove, `none` when
`k` was never touched. -/
def lastWrite : List (StoreOp K V) → K → Option (Option V)
  | [], _ => none
  | op :: rest, k =>
    (lastWrite rest k).orElse (fun _ =>
      match op with
      | .ins k2 v => if k2 = k then some (some v) else none
      | .del k2 => if k2 = k then some none else none
      | _ => none)

/-- Well-formedness of a store: the Memory Stage and every Run are strictly
key-sorted. -/
def WF (s : Store K V) : Prop :=
  List.Pairwise (fun a b => a.1 < b.1) s.mem
  ∧ ∀ r ∈ s.runs, List.Pairwise (fun a b => a.1 < b.1) r.entries

/-- The distinct keys a store mentions anywhere. -/
def storeKeys (s : Store K V) : List K :=
  (s.mem.map Prod.fst ++ (s.runs.map (fun r => r.entries.map Prod.fst)).flatten).dedup

/-- The distinct keys whose lookup currently hits a value. -/
def reachableKeys (s : Store K V) : List K :=
  (storeKeys s).filter (fun k => (s.get k).isSome)

/-- Modelled from the spec (§4.2, §7): a store together with an optional
unpublished temp file on disk — the write-temp-then-rename flush discipline
made explicit. -/
structure FStore (K V : Type) where
  store : Store K V
  temp : Option (List (K × Option V))

/-- Modelled from the spec (§4.5 flush, §7): the primitive steps of a flush:
step 0 writes the drained, sorted Memory Stage contents to a temp file;
step 1 atomically renames the temp file, publishing it as the newest Run;
step 2 clears the Memory Stage.  A failed flush or a crash stops before some
step; the temp file is never part of the Run Collection. -/
def flushStep (f : FStore K V) : Nat → FStore K V
  | 0 => ⟨f.store, some f.store.mem⟩
  | 1 =>
    match f.temp with
    | some e =>
      ⟨⟨f.store.mem, ⟨f.store.nextId, e⟩ :: f.store.runs, f.store.nextId + 1,
        f.store.bound⟩, none⟩
    | none => f
  | _ => ⟨⟨[], f.store.runs, f.store.nextId, f.store.bound⟩, f.temp⟩

/-- Perform the first `n` flush steps from a clean state. -/
def flushUpTo (s : Store K V) (n : Nat) : FStore K V :=
  (List.range n).foldl flushStep ⟨s, none⟩

end Store

/-- Concrete left operand for the C9 witness. -/
def unionWitnessL : Treap Nat Nat :=
  ⟨TTree.node 1 10 5 TTree.nil TTree.nil, fun _ => 0, 0, 1⟩

/-- Concrete right operand for the C9 witness. -/
def unionWitnessR : Treap Nat Nat :=
  ⟨TTree.node 1 20 7 TTree.nil TTree.nil, fun _ => 0, 0, 1⟩

/-- The operation sequence of the C1 counterexample: with Memory Stage bound
3 it leaves Runs of sizes 3, 1, 3 (newest first), the overwritten value of
key 5 in the oldest Run and the current value in the middle one. -/
def c1xOps : List (Store.StoreOp Nat Nat) :=
  [.ins 5 0, .ins 1 0, .ins 2 0, .ins 5 1, .flushOp, .ins 11 0, .ins 12 0, .ins 13 0]

/-- The compaction parameters of the C1 counterexample:
`min_merge_width = 2`, `max_merge_width = 4`, ratio bounds `[1/2, 3/2]`. -/
def c1xParams : Store.SizeTieredParams := ⟨2, 4, 1, 2, 3, 2⟩

/-- Concrete store for the C2 witness: one Run holding key 3. -/
def c2wStore : Store Nat Nat := ⟨[], [⟨0, [(3, some 7)]⟩], 1, 10⟩

/-- Concrete store for the C3 witness: two Runs that a contiguous compaction
merges. -/
def c3wStore : Store Nat Nat :=
  ⟨[], [⟨1, [(2, some 20)]⟩, ⟨0, [(1, some 10), (2, some 5)]⟩], 2, 10⟩

/-- Newest Run of the C3 counterexample. -/
def c3xR1 : Run Nat Nat := ⟨2, [(11, some 0)]⟩

/-- Untouched middle Run of the C3 counterexample: the current value of
key 5. -/
def c3xU : Run Nat Nat := ⟨1, [(5, some 1)]⟩

/-- Oldest Run of the C3 counterexample: the stale value of key 5. -/
def c3xR2 : Run Nat Nat := ⟨0, [(5, some 0), (7, some 0)]⟩

/-- The merge of the non-contiguous set {newest, oldest}. -/
def c3xM : Run Nat Nat := Store.mergeRuns [c3xR1, c3xR2] 2

/-- Concrete store for the C5 witness: a non-empty Memory Stage. -/
def c5wStore : Store Nat Nat := ⟨[(1, some 1)], [], 0, 10⟩

/-- The compaction parameters of the §8 scenario: `min_merge_width = 2`,
`bucket_low = 1/2`, `bucket_high = 3/2` (and `max_merge_width = 4`, wide
enough for the four Runs of the scenario). -/
def c6Params : Store.SizeTieredParams := ⟨2, 4, 1, 2, 3, 2⟩

/-- The §8 scenario after the inserts: keys 1..=200 with sequential values
(value = key) into a store with Memory Stage bound 50. -/
def c6AfterInserts : Store Nat Nat :=
  (List.range' 1 200 1).foldl (fun s k => s.insert k k) (Store.new 50)

/-- The §8 scenario final state: after `remove 50` and one `compact_once`. -/
def c6Final : Store Nat Nat :=
  Store.compact_once c6Params (c6AfterInserts.remove 50)

/-! ## Theorems -/

theorem alget_append {K V : Type} [DecidableEq K] (xs ys : List (K × V)) (k : K) :
    alget (xs ++ ys) k = (alget xs k).orElse (fun _ => alget ys k) := by
  induction xs with
  | nil => simp [alget]
  | cons hd tl ih =>
    by_cases h : hd.1 = k <;> simp [alget, h, ih]

theorem alget_eq_none_of_not_mem {K V : Type} [DecidableEq K]
    (xs : List (K × V)) (k : K) (h : k ∉ xs.map Prod.fst) : alget xs k = none := by
  induction xs with
  | nil => rfl
  | cons hd tl ih =>
    simp only [List.map_cons, List.mem_cons] at h
    push_neg at h
    simp [alget, Ne.symm h.1, ih h.2]

theorem mem_of_alget_eq_some {K V : Type} [DecidableEq K]
    (xs : List (K × V)) (k : K) (v : V) (h : alget xs k = some v) :
    k ∈ xs.map Prod.fst := by
  induction xs with
  | nil => simp [alget] at h
  | cons hd tl ih =>
    by_cases hk : hd.1 = k
    · simp [hk]
    · simp only [alget, hk, if_false] at h
      simp [ih h]

theorem alget_isSome_of_mem {K V : Type} [DecidableEq K]
    (xs : List (K × V)) (k : K) (h : k ∈ xs.map Prod.fst) :
    (alget xs k).isSome := by
  induction xs with
  | nil => simp at h
  | cons hd tl ih =>
    by_cases hk : hd.1 = k
    · simp [alget, hk]
    · simp only [List.map_cons, List.mem_cons] at h
      rcases h with h | h
      · exact absurd h.symm hk
      · simpa [alget, hk] using ih h

namespace TTree

variable {K V : Type} [LinearOrder K]

theorem tsize_tsplit (t : TTree K V) (k : K) :
    tsize (tsplit t k).1 + tsize (tsplit t k).2.2 ≤ tsize t := by
  induction t with
  | nil => simp [tsplit, tsize]
  | node nk nv np l r ihl ihr =>
    by_cases h1 : nk < k
    · simp only [tsplit, if_pos h1, tsize]
      omega
    · by_cases h2 : k < nk
      · simp only [tsplit, if_neg h1, if_pos h2, tsize]
        omega
      · simp only [tsplit, if_neg h1, if_neg h2, tsize]
        omega

theorem keys_node (nk : K) (nv : V) (np : Nat) (l r : TTree K V) :
    keys (node nk nv np l r) = keys l ++ nk :: keys r := by
  simp [keys, toList]

theorem bstB_node {nk : K} {nv : V} {np : Nat} {l r : TTree K V} :
    bstB (node nk nv np l r) = true ↔
      (∀ x ∈ keys l, x < nk) ∧ (∀ x ∈ keys r, nk < x) ∧ bstB l = true ∧ bstB r = true := by
  simp [bstB, List.all_eq_true, and_assoc]

theorem bstB_iff_pairwise (t : TTree K V) :
    bstB t = true ↔ List.Pairwise (· < ·) (keys t) := by
  induction t with
  | nil => simp [bstB, keys, toList]
  | node nk nv np l r ihl ihr =>
    rw [bstB_node, keys_node, List.pairwise_append, List.pairwise_cons]
    constructor
    · rintro ⟨hl, hr, bl, br⟩
      refine ⟨ihl.mp bl, ⟨hr, ihr.mp br⟩, ?_⟩
      intro x hx y hy
      rcases List.mem_cons.mp hy with rfl | hy
      · exact hl x hx
      · exact lt_trans (hl x hx) (hr y hy)
    · rintro ⟨pl, ⟨hr, pr⟩, cross⟩
      exact ⟨fun x hx => cross x hx nk (List.mem_cons_self _ _),
        hr, ihl.mpr pl, ihr.mpr pr⟩

theorem mem_insList {k : K} {v : V} {xs : List (K × V)} {y : K × V}
    (h : y ∈ insList k v xs) : y = (k, v) ∨ y ∈ xs := by
  induction xs with
  | nil => simpa [insList] using h
  | cons hd tl ih =>
    obtain ⟨k', v'⟩ := hd
    by_cases h1 : k' < k
    · simp only [insList, if_pos h1, List.mem_cons] at h
      rcases h with rfl | h
      · exact Or.inr (List.mem_cons_self _ _)
      · rcases ih h with h | h
        · exact Or.inl h
        · exact Or.inr (List.mem_cons_of_mem _ h)
    · by_cases h2 : k' = k
      · simp only [insList, if_neg h1, if_pos h2, List.mem_cons] at h
        rcases h with rfl | h
        · exact Or.inl rfl
        · exact Or.inr (List.mem_cons_of_mem _ h)
      · simp only [insList, if_neg h1, if_neg h2, List.mem_cons] at h
        rcases h with rfl | h | h
        · exact Or.inl rfl
        · exact Or.inr (by simp [h])
        · exact Or.inr (List.mem_cons_of_mem _ h)

theorem pairwise_insList (k : K) (v : V) (xs : List (K × V))
    (h : List.Pairwise (fun a b => a.1 < b.1) xs) :
    List.Pairwise (fun a b => a.1 < b.1) (insList k v xs) := by
  induction xs with
  | nil => simp [insList]
  | cons hd tl ih =>
    obtain ⟨k', v'⟩ := hd
    rw [List.pairwise_cons] at h
    by_cases h1 : k' < k
    · simp only [insList, if_pos h1]
      rw [List.pairwise_cons]
      refine ⟨?_, ih h.2⟩
      intro y hy
      rcases mem_insList hy with rfl | hy
      · exact h1
      · exact h.1 y hy
    · by_cases h2 : k' = k
      · simp only [insList, if_neg h1, if_pos h2]
        rw [List.pairwise_cons]
        subst h2
        exact ⟨h.1, h.2⟩
      · have h3 : k < k' := lt_of_le_of_ne (not_lt.mp h1) (Ne.symm h2)
        simp only [insList, if_neg h1, if_neg h2]
        rw [List.pairwise_cons]
        constructor
        · intro y hy
          rcases List.mem_cons.mp hy with rfl | hy
          · exact h3
          · exact lt_trans h3 (h.1 y hy)
        · rw [List.pairwise_cons]
          exact h

theorem alget_insList_self (k : K) (v : V) (xs : List (K × V)) :
    alget (insList k v xs) k = some v := by
  induction xs with
  | nil => simp [insList, alget]
  | cons hd tl ih =>
    obtain ⟨k', v'⟩ := hd
    by_cases h1 : k' < k
    · simp [insList, if_pos h1, alget, ne_of_lt h1, ih]
    · by_cases h2 : k' = k
      · simp [insList, if_neg h1, if_pos h2, alget]
      · simp [insList, if_neg h1, if_neg h2, alget]

theorem alget_insList_ne (k k' : K) (v : V) (xs : List (K × V)) (hne : k ≠ k') :
    alget (insList k v xs) k' = alget xs k' := by
  induction xs with
  | nil => simp [insList, alget, hne]
  | cons hd tl ih =>
    obtain ⟨k1, v1⟩ := hd
    by_cases h1 : k1 < k
    · by_cases hk : k1 = k'
      · subst hk
        simp [insList, if_pos h1, alget]
      · simp [insList, if_pos h1, alget, hk, ih]
    · by_cases h2 : k1 = k
      · subst h2
        simp [insList, if_neg h1, alget, hne, Ne.symm hne]
      · simp [insList, if_neg h1, if_neg h2, alget, hne]

theorem length_insList (k : K) (v : V) (xs : List (K × V))
    (hp : List.Pairwise (fun a b => a.1 < b.1) xs) :
    (insList k v xs).length = if k ∈ xs.map Prod.fst then xs.length else xs.length + 1 := by
  induction xs with
  | nil => simp [insList]
  | cons hd tl ih =>
    obtain ⟨k', v'⟩ := hd
    rw [List.pairwise_cons] at hp
    by_cases h1 : k' < k
    · have hne : k' ≠ k := ne_of_lt h1
      by_cases hm : k ∈ tl.map Prod.fst
      · simp [insList, if_pos h1, ih hp.2, hm, Ne.symm hne]
      · simp [insList, if_pos h1, ih hp.2, hm, Ne.symm hne]
    · by_cases h2 : k' = k
      · simp [insList, if_neg h1, if_pos h2, h2]
      · have h3 : k < k' := lt_of_le_of_ne (not_lt.mp h1) (Ne.symm h2)
        have hm : k ∉ tl.map Prod.fst := by
          intro hmem
          obtain ⟨y, hy, hy2⟩ := List.mem_map.mp hmem
          exact absurd (hy2 ▸ hp.1 y hy) (by simp [not_lt]; exact le_of_lt h3)
        simp [insList, if_neg h1, if_neg h2, Ne.symm h2, hm]

theorem delList_of_not_mem (k : K) (xs : List (K × V)) (h : k ∉ xs.map Prod.fst) :
    delList k xs = xs := by
  induction xs with
  | nil => rfl
  | cons hd tl ih =>
    simp only [List.map_cons, List.mem_cons] at h
    push_neg at h
    simp [delList, Ne.symm h.1, ih h.2]

theorem length_delList (k : K) (xs : List (K × V)) :
    (delList k xs).length = if k ∈ xs.map Prod.fst then xs.length - 1 else xs.length := by
  induction xs with
  | nil => simp [delList]
  | cons hd tl ih =>
    obtain ⟨k', v'⟩ := hd
    by_cases h1 : k' = k
    · simp [delList, h1]
    · by_cases hm : k ∈ tl.map Prod.fst
      · have : tl.length ≠ 0 := by
          intro hlen
          rw [List.length_eq_zero] at hlen
          subst hlen
          simp at hm
        simp [delList, h1, ih, hm, Ne.symm h1]
        omega
      · simp [delList, h1, ih, hm, Ne.symm h1]

theorem insList_append_gt (k nk : K) (v nv : V) (xs ys : List (K × V)) (h : k < nk) :
    insList k v (xs ++ (nk, nv) :: ys) = insList k v xs ++ (nk, nv) :: ys := by
  induction xs with
  | nil => simp [insList, not_lt_of_gt h, ne_of_gt h]
  | cons hd tl ih =>
    obtain ⟨k', v'⟩ := hd
    by_cases h1 : k' < k
    · simp [insList, if_pos h1, ih]
    · by_cases h2 : k' = k
      · simp [insList, if_neg h1, if_pos h2]
      · simp [insList, if_neg h1, if_neg h2]

theorem insList_append_lt (k nk : K) (v nv : V) (xs ys : List (K × V))
    (hx : ∀ x ∈ xs.map Prod.fst, x < k) (h : nk < k) :
    insList k v (xs ++ (nk, nv) :: ys) = xs ++ (nk, nv) :: insList k v ys := by
  induction xs with
  | nil => simp [insList, h, ne_of_lt h]
  | cons hd tl ih =>
    obtain ⟨k', v'⟩ := hd
    have h1 : k' < k := hx k' (by simp)
    have hx' : ∀ x ∈ tl.map Prod.fst, x < k := fun x hmem => hx x (by simp [hmem])
    simp [insList, if_pos h1, ih hx']

theorem insList_append_eq (k : K) (v nv : V) (xs ys : List (K × V))
    (hx : ∀ x ∈ xs.map Prod.fst, x < k) :
    insList k v (xs ++ (k, nv) :: ys) = xs ++ (k, v) :: ys := by
  induction xs with
  | nil => simp [insList]
  | cons hd tl ih =>
    obtain ⟨k', v'⟩ := hd
    have h1 : k' < k := hx k' (by simp)
    have hx' : ∀ x ∈ tl.map Prod.fst, x < k := fun x hmem => hx x (by simp [hmem])
    simp [insList, if_pos h1, ih hx']

theorem delList_append (k : K) (xs ys : List (K × V)) (h : k ∉ xs.map Prod.fst) :
    delList k (xs ++ ys) = xs ++ delList k ys := by
  induction xs with
  | nil => rfl
  | cons hd tl ih =>
    simp only [List.map_cons, List.mem_cons] at h
    push_neg at h
    simp [delList, Ne.symm h.1, ih h.2]

/-! Lookup through the in-order list of a BST node. -/
theorem alget_toList_node_lt {nk : K} {nv : V} {np : Nat} {l r : TTree K V} {k : K}
    (hk : k < nk) (hr : ∀ x ∈ keys r, nk < x) :
    alget (toList (node nk nv np l r)) k = alget (toList l) k := by
  rw [toList, alget_append]
  have h2 : alget ((nk, nv) :: toList r) k = none := by
    have : k ∉ ((nk, nv) :: toList r).map Prod.fst := by
      simp only [List.map_cons, List.mem_cons]
      push_neg
      exact ⟨ne_of_lt hk, fun hmem => absurd (hr k hmem) (lt_asymm hk)⟩
    exact alget_eq_none_of_not_mem _ _ this
  cases h : alget (toList l) k <;> simp [h, h2, Option.orElse]

theorem alget_toList_node_gt {nk : K} {nv : V} {np : Nat} {l r : TTree K V} {k : K}
    (hk : nk < k) (hl : ∀ x ∈ keys l, x < nk) :
    alget (toList (node nk nv np l r)) k = alget (toList r) k := by
  rw [toList, alget_append]
  have h1 : alget (toList l) k = none := by
    refine alget_eq_none_of_not_mem _ _ ?_
    intro hmem
    exact absurd (hl k hmem) (lt_asymm hk)
  simp [h1, alget, Ne.symm (ne_of_gt hk), Option.orElse]

theorem alget_toList_node_eq {nk : K} {nv : V} {np : Nat} {l r : TTree K V}
    (hl : ∀ x ∈ keys l, x < nk) :
    alget (toList (node nk nv np l r)) nk = some nv := by
  rw [toList, alget_append]
  have h1 : alget (toList l) nk = none := by
    refine alget_eq_none_of_not_mem _ _ ?_
    intro hmem
    exact absurd (hl nk hmem) (lt_irrefl nk)
  simp [h1, alget, Option.orElse]

/-- Lookup `tree_get` computes association-list lookup on the in-order listing. -/
theorem tree_get_eq_alget (t : TTree K V) (k : K) (hb : bstB t = true) :
    tree_get t k = alget (toList t) k := by
  induction t with
  | nil => rfl
  | node nk nv np l r ihl ihr =>
    obtain ⟨hl, hr, bl, br⟩ := bstB_node.mp hb
    by_cases h1 : k = nk
    · subst h1
      rw [tree_get, if_pos rfl, alget_toList_node_eq hl]
    · by_cases h2 : k < nk
      · rw [tree_get, if_neg h1, if_pos h2, alget_toList_node_lt h2 hr, ihl bl]
      · have h3 : nk < k := lt_of_le_of_ne (not_lt.mp h2) (Ne.symm h1)
        rw [tree_get, if_neg h1, if_neg h2, alget_toList_node_gt h3 hl, ihr br]

theorem tree_contains_eq (t : TTree K V) (k : K) (hb : bstB t = true) :
    tree_contains t k = (tree_get t k).isSome := by
  induction t with
  | nil => rfl
  | node nk nv np l r ihl ihr =>
    obtain ⟨hl, hr, bl, br⟩ := bstB_node.mp hb
    by_cases h1 : k = nk
    · simp [tree_contains, tree_get, h1]
    · by_cases h2 : k < nk
      · simp [tree_contains, tree_get, h1, h2, ihl bl]
      · simp [tree_contains, tree_get, h1, h2, ihr br]

theorem toList_rotateLeft (t : TTree K V) : toList (rotateLeft t) = toList t := by
  cases t with
  | nil => rfl
  | node k v p l r =>
    cases r with
    | nil => rfl
    | node rk rv rp rl rr => simp [rotateLeft, toList]

theorem toList_rotateRight (t : TTree K V) : toList (rotateRight t) = toList t := by
  cases t with
  | nil => rfl
  | node k v p l r =>
    cases l with
    | nil => rfl
    | node lk lv lp ll lr => simp [rotateRight, toList]

/-- Insertion `tree_insert` acts on the in-order list as sorted insert-or-replace. -/
theorem toList_tree_insert (t : TTree K V) (k : K) (v : V) (p : Nat) (hb : bstB t = true) :
    toList (tree_insert t k v p).1 = insList k v (toList t) := by
  induction t with
  | nil => simp [tree_insert, toList, insList]
  | node nk nv np l r ihl ihr =>
    obtain ⟨hl, hr, bl, br⟩ := bstB_node.mp hb
    by_cases h1 : k < nk
    · have : toList (tree_insert (node nk nv np l r) k v p).1
          = toList (tree_insert l k v p).1 ++ (nk, nv) :: toList r := by
        simp only [tree_insert, if_pos h1]
        by_cases hv : heapViolated np (tree_insert l k v p).1 = true
        · simp [hv, toList_rotateRight, toList]
        · simp [hv, toList]
      rw [this, ihl bl, toList, insList_append_gt _ _ _ _ _ _ h1]
    · by_cases h2 : nk < k
      · have : toList (tree_insert (node nk nv np l r) k v p).1
            = toList l ++ (nk, nv) :: toList (tree_insert r k v p).1 := by
          simp only [tree_insert, if_neg h1, if_pos h2]
          by_cases hv : heapViolated np (tree_insert r k v p).1 = true
          · simp [hv, toList_rotateLeft, toList]
          · simp [hv, toList]
        rw [this, ihr br, toList,
          insList_append_lt _ _ _ _ _ _ (fun x hx => lt_trans (hl x hx) h2) h2]
      · have h3 : k = nk := le_antisymm (not_lt.mp h2) (not_lt.mp h1)
        subst h3
        simp only [tree_insert, if_neg h1, if_neg h2, toList]
        rw [insList_append_eq _ _ _ _ _ hl]

/-- Insertion `tree_insert` returns the previously stored pair (whose key equals the
inserted key) exactly when the key was present. -/
theorem snd_tree_insert (t : TTree K V) (k : K) (v : V) (p : Nat) (hb : bstB t = true) :
    (tree_insert t k v p).2 = (alget (toList t) k).map (fun w => (k, w)) := by
  induction t with
  | nil => simp [tree_insert, toList, alget]
  | node nk nv np l r ihl ihr =>
    obtain ⟨hl, hr, bl, br⟩ := bstB_node.mp hb
    by_cases h1 : k < nk
    · simp only [tree_insert, if_pos h1]
      rw [alget_toList_node_lt h1 hr, ← ihl bl]
    · by_cases h2 : nk < k
      · simp only [tree_insert, if_neg h1, if_pos h2]
        rw [alget_toList_node_gt h2 hl, ← ihr br]
      · have h3 : k = nk := le_antisymm (not_lt.mp h2) (not_lt.mp h1)
        subst h3
        simp only [tree_insert, if_neg h1, if_neg h2]
        rw [alget_toList_node_eq hl]
        rfl

theorem bstB_tree_insert (t : TTree K V) (k : K) (v : V) (p : Nat) (hb : bstB t = true) :
    bstB (tree_insert t k v p).1 = true := by
  rw [bstB_iff_pairwise] at hb ⊢
  rw [keys, toList_tree_insert t k v p (by rw [bstB_iff_pairwise]; exact hb),
    List.pairwise_map]
  rw [keys, List.pairwise_map] at hb
  exact pairwise_insList k v _ hb

/-- Merging `tmerge` concatenates the in-order listings. -/
theorem toList_tmerge (l r : TTree K V) : toList (tmerge l r) = toList l ++ toList r := by
  induction l, r using tmerge.induct with
  | case1 r => simp [tmerge, toList]
  | case2 lk lv lp ll lr => simp [tmerge, toList]
  | case3 lk lv lp ll lr rk rv rp rl rr hp ih =>
    rw [tmerge, if_pos hp]
    simp [toList, ih]
  | case4 lk lv lp ll lr rk rv rp rl rr hp ih =>
    rw [tmerge, if_neg hp]
    simp [toList, ih]

/-- Splitting `tsplit` partitions the in-order listing. -/
theorem toList_tsplit (t : TTree K V) (k : K) :
    toList t = toList (tsplit t k).1 ++ optE (tsplit t k).2.1 ++ toList (tsplit t k).2.2 := by
  induction t with
  | nil => simp [tsplit, toList, optE]
  | node nk nv np l r ihl ihr =>
    by_cases h1 : nk < k
    · simp only [tsplit, if_pos h1, toList]
      rw [ihr]
      simp
    · by_cases h2 : k < nk
      · simp only [tsplit, if_neg h1, if_pos h2, toList]
        rw [ihl]
        simp
      · have h3 : nk = k := le_antisymm (not_lt.mp h2) (not_lt.mp h1)
        subst h3
        simp [tsplit, toList, optE]

/-- The bounds and duplicate facts of `tsplit` on a BST. -/
theorem tsplit_spec (t : TTree K V) (k : K) (hb : bstB t = true) :
    (∀ x ∈ keys (tsplit t k).1, x < k) ∧ (∀ x ∈ keys (tsplit t k).2.2, k < x) ∧
      (∀ e, (tsplit t k).2.1 = some e → e.1 = k ∧ alget (toList t) k = some e.2.1) ∧
      ((tsplit t k).2.1 = none → k ∉ keys t) := by
  induction t with
  | nil => simp [tsplit, keys, toList]
  | node nk nv np l r ihl ihr =>
    obtain ⟨hl, hr, bl, br⟩ := bstB_node.mp hb
    by_cases h1 : nk < k
    · obtain ⟨s1, s2, s3, s4⟩ := ihr br
      refine ⟨?_, ?_, ?_, ?_⟩ <;> simp only [tsplit, if_pos h1]
      · intro x hx
        rw [keys_node] at hx
        rcases List.mem_append.mp hx with hx | hx
        · exact lt_trans (hl x hx) h1
        · rcases List.mem_cons.mp hx with rfl | hx
          · exact h1
          · exact s1 x hx
      · exact s2
      · intro e he
        refine ⟨(s3 e he).1, ?_⟩
        rw [alget_toList_node_gt h1 hl]
        exact (s3 e he).2
      · intro hnone
        rw [keys_node]
        intro hmem
        rcases List.mem_append.mp hmem with hmem | hmem
        · exact absurd (hl k hmem) (lt_asymm h1)
        · rcases List.mem_cons.mp hmem with rfl | hmem
          · exact lt_irrefl k h1
          · exact s4 hnone hmem
    · by_cases h2 : k < nk
      · obtain ⟨s1, s2, s3, s4⟩ := ihl bl
        refine ⟨?_, ?_, ?_, ?_⟩ <;> simp only [tsplit, if_neg h1, if_pos h2]
        · exact s1
        · intro x hx
          rw [keys_node] at hx
          rcases List.mem_append.mp hx with hx | hx
          · exact s2 x hx
          · rcases List.mem_cons.mp hx with rfl | hx
            · exact h2
            · exact lt_trans h2 (hr x hx)
        · intro e he
          refine ⟨(s3 e he).1, ?_⟩
          rw [alget_toList_node_lt h2 hr]
          exact (s3 e he).2
        · intro hnone
          rw [keys_node]
          intro hmem
          rcases List.mem_append.mp hmem with hmem | hmem
          · exact s4 hnone hmem
          · rcases List.mem_cons.mp hmem with rfl | hmem
            · exact lt_irrefl k h2
            · exact absurd (hr k hmem) (lt_asymm h2)
      · have h3 : nk = k := le_antisymm (not_lt.mp h2) (not_lt.mp h1)
        subst h3
        refine ⟨?_, ?_, ?_, ?_⟩ <;> simp only [tsplit, if_neg h1, if_neg h2]
        · exact hl
        · exact hr
        · intro e he
          obtain rfl : (nk, nv, np) = e := by simpa using he
          exact ⟨rfl, alget_toList_node_eq hl⟩
        · intro hnone
          simp at hnone

theorem bstB_tsplit_less (t : TTree K V) (k : K) (hb : bstB t = true) :
    bstB (tsplit t k).1 = true := by
  rw [bstB_iff_pairwise] at hb ⊢
  rw [keys, toList_tsplit t k, List.map_append, List.map_append] at hb
  exact ((hb.sublist (List.sublist_append_left _ _)).sublist (List.sublist_append_left _ _))

theorem bstB_tsplit_greater (t : TTree K V) (k : K) (hb : bstB t = true) :
    bstB (tsplit t k).2.2 = true := by
  rw [bstB_iff_pairwise] at hb ⊢
  rw [keys, toList_tsplit t k, List.map_append] at hb
  exact hb.sublist (List.sublist_append_right _ _)

theorem orElse_none_right {α : Type} (x : Option α) : (x.orElse fun _ => none) = x := by
  cases x <;> rfl

theorem keys_tsplit (t : TTree K V) (k : K) :
    keys t = keys (tsplit t k).1 ++ (optE (tsplit t k).2.1).map Prod.fst
      ++ keys (tsplit t k).2.2 := by
  rw [keys, toList_tsplit t k]
  simp [keys]

/-- For `x` below the split key, lookup in the tree is lookup in the
lower part. -/
theorem alget_tsplit_lt (t : TTree K V) (k x : K) (hb : bstB t = true) (hx : x < k) :
    alget (toList t) x = alget (toList (tsplit t k).1) x := by
  obtain ⟨s1, s2, s3, s4⟩ := tsplit_spec t k hb
  have hpart := toList_tsplit t k
  rw [hpart, List.append_assoc, alget_append]
  have hnone : alget (optE (tsplit t k).2.1 ++ toList (tsplit t k).2.2) x = none := by
    refine alget_eq_none_of_not_mem _ _ ?_
    simp only [List.map_append, List.mem_append]
    push_neg
    constructor
    · cases he : (tsplit t k).2.1 with
      | none => simp [optE]
      | some e =>
        have := (s3 e he).1
        simp [optE, this]
        exact ne_of_lt hx
    · intro hmem
      exact absurd (s2 x hmem) (lt_asymm hx)
  rw [hnone, orElse_none_right]

/-- For `x` above the split key, lookup in the tree is lookup in the
upper part. -/
theorem alget_tsplit_gt (t : TTree K V) (k x : K) (hb : bstB t = true) (hx : k < x) :
    alget (toList t) x = alget (toList (tsplit t k).2.2) x := by
  obtain ⟨s1, s2, s3, s4⟩ := tsplit_spec t k hb
  rw [toList_tsplit t k, alget_append]
  have hnone : alget (toList (tsplit t k).1 ++ optE (tsplit t k).2.1) x = none := by
    refine alget_eq_none_of_not_mem _ _ ?_
    simp only [List.map_append, List.mem_append]
    push_neg
    constructor
    · intro hmem
      exact absurd (s1 x hmem) (lt_asymm hx)
    · cases he : (tsplit t k).2.1 with
      | none => simp [optE]
      | some e =>
        have h1 := (s3 e he).1
        simp only [optE, List.map_cons, List.map_nil, List.mem_singleton, h1]
        exact ne_of_gt hx
  rw [hnone]
  rfl

theorem commonCount_nil_right (xs : List K) : commonCount xs [] = 0 := by
  simp [commonCount]

theorem commonCount_append (xs ys zs : List K) :
    commonCount (xs ++ ys) zs = commonCount xs zs + commonCount ys zs := by
  simp [commonCount, List.filter_append]

theorem commonCount_cons (x : K) (xs zs : List K) :
    commonCount (x :: xs) zs = (if x ∈ zs then 1 else 0) + commonCount xs zs := by
  by_cases h : x ∈ zs <;> simp [commonCount, List.filter_cons, h] <;> omega

theorem commonCount_congr (xs ys zs : List K) (h : ∀ x ∈ xs, x ∈ ys ↔ x ∈ zs) :
    commonCount xs ys = commonCount xs zs := by
  rw [commonCount, commonCount, List.filter_congr]
  intro x hx
  simp [h x hx]

theorem commonCount_comm (xs ys : List K) (hx : xs.Nodup) (hy : ys.Nodup) :
    commonCount xs ys = commonCount ys xs := by
  rw [commonCount, commonCount,
    ← List.toFinset_card_of_nodup (hx.filter _),
    ← List.toFinset_card_of_nodup (hy.filter _),
    List.toFinset_filter, List.toFinset_filter]
  congr 1
  apply Finset.ext
  intro a
  simp only [Finset.mem_filter, List.mem_toFinset, decide_eq_true_eq]
  exact and_comm

theorem toList_tree_remove (t : TTree K V) (k : K) (hb : bstB t = true) :
    toList (tree_remove t k).1 = delList k (toList t) := by
  obtain ⟨s1, s2, s3, s4⟩ := tsplit_spec t k hb
  rw [tree_remove, toList_tmerge]
  have hpart := toList_tsplit t k
  cases he : (tsplit t k).2.1 with
  | none =>
    rw [he, optE] at hpart
    have hnm : k ∉ (toList t).map Prod.fst := by simpa [keys] using s4 he
    rw [delList_of_not_mem _ _ hnm, hpart]
    simp
  | some e =>
    obtain ⟨hek, _⟩ := s3 e he
    rw [he, optE] at hpart
    rw [hpart, List.append_assoc, List.singleton_append, delList_append]
    · simp [delList, hek]
    · intro hmem
      have : k ∈ keys (tsplit t k).1 := by simpa [keys] using hmem
      exact absurd (s1 k this) (lt_irrefl k)

theorem snd_tree_remove (t : TTree K V) (k : K) (hb : bstB t = true) :
    (tree_remove t k).2 = (alget (toList t) k).map (fun w => (k, w)) := by
  obtain ⟨s1, s2, s3, s4⟩ := tsplit_spec t k hb
  rw [tree_remove]
  cases he : (tsplit t k).2.1 with
  | none =>
    have : alget (toList t) k = none := by
      refine alget_eq_none_of_not_mem _ _ ?_
      exact s4 he
    simp [this]
  | some e =>
    obtain ⟨hek, hval⟩ := s3 e he
    simp [hval, hek]

theorem bstB_tree_remove (t : TTree K V) (k : K) (hb : bstB t = true) :
    bstB (tree_remove t k).1 = true := by
  rw [bstB_iff_pairwise] at hb ⊢
  rw [keys, toList_tsplit t k, List.map_append, List.map_append] at hb
  rw [keys, tree_remove, toList_tmerge, List.map_append]
  have h1 : List.Sublist
      ((toList (tsplit t k).1).map Prod.fst ++ (toList (tsplit t k).2.2).map Prod.fst)
      (((toList (tsplit t k).1).map Prod.fst ++ (optE (tsplit t k).2.1).map Prod.fst)
        ++ (toList (tsplit t k).2.2).map Prod.fst) := by
    rw [List.append_assoc]
    exact ((List.sublist_append_right _ _).append_left _)
  exact hb.sublist h1

theorem delList_sublist (k : K) (xs : List (K × V)) : List.Sublist (delList k xs) xs := by
  induction xs with
  | nil => simp [delList]
  | cons hd tl ih =>
    obtain ⟨k', v'⟩ := hd
    by_cases h : k' = k
    · simp only [delList, if_pos h]
      exact List.sublist_cons_self _ _
    · simp only [delList, if_neg h]
      exact ih.cons₂ _

theorem not_mem_delList (k : K) (xs : List (K × V))
    (hp : List.Pairwise (fun a b => a.1 < b.1) xs) :
    k ∉ (delList k xs).map Prod.fst := by
  induction xs with
  | nil => simp [delList]
  | cons hd tl ih =>
    obtain ⟨k', v'⟩ := hd
    rw [List.pairwise_cons] at hp
    by_cases h : k' = k
    · subst h
      simp only [delList, if_pos rfl]
      intro hmem
      obtain ⟨y, hy, hy2⟩ := List.mem_map.mp hmem
      exact absurd (hy2 ▸ hp.1 y hy) (lt_irrefl _)
    · simp only [delList, if_neg h, List.map_cons, List.mem_cons]
      push_neg
      exact ⟨Ne.symm h, ih hp.2⟩

theorem alget_delList_self (k : K) (xs : List (K × V))
    (hp : List.Pairwise (fun a b => a.1 < b.1) xs) :
    alget (delList k xs) k = none :=
  alget_eq_none_of_not_mem _ _ (not_mem_delList k xs hp)

theorem alget_delList_ne (k k' : K) (xs : List (K × V)) (hne : k ≠ k') :
    alget (delList k xs) k' = alget xs k' := by
  induction xs with
  | nil => rfl
  | cons hd tl ih =>
    obtain ⟨k1, v1⟩ := hd
    by_cases h : k1 = k
    · subst h
      simp [delList, alget, hne]
    · simp [delList, h, alget, ih]

theorem nodup_of_pairwise_keys {xs : List (K × V)}
    (hp : List.Pairwise (fun a b => a.1 < b.1) xs) : (xs.map Prod.fst).Nodup :=
  List.pairwise_map.mpr (hp.imp fun h => ne_of_lt h)

theorem nodup_keys_of_bst (t : TTree K V) (hb : bstB t = true) : (keys t).Nodup :=
  ((bstB_iff_pairwise t).mp hb).imp ne_of_lt

theorem tree_union_spec : ∀ (l r : TTree K V) (sw : Bool),
    bstB l = true → bstB r = true →
    (∀ x, x ∈ keys (tree_union l r sw).1 ↔ x ∈ keys l ∨ x ∈ keys r)
    ∧ bstB (tree_union l r sw).1 = true
    ∧ (∀ x, alget (toList (tree_union l r sw).1) x
        = if sw then (alget (toList r) x).orElse (fun _ => alget (toList l) x)
          else (alget (toList l) x).orElse (fun _ => alget (toList r) x))
    ∧ (tree_union l r sw).2 = commonCount (keys l) (keys r) := by
  intro l r sw
  induction l, r, sw using tree_union.induct with
  | case1 r sw =>
    intro _ hr
    refine ⟨?_, ?_, ?_, ?_⟩
    · intro x
      simp [tree_union, keys, toList]
    · simpa [tree_union] using hr
    · intro x
      cases sw <;> simp [tree_union, toList, alget, orElse_none_right]
    · simp [tree_union, keys, toList, commonCount]
  | case2 lk lv lp ll lr sw =>
    intro hl _
    refine ⟨?_, ?_, ?_, ?_⟩
    · intro x
      simp [tree_union, keys, toList]
    · simpa [tree_union] using hl
    · intro x
      cases sw <;> simp [tree_union, toList, alget, orElse_none_right]
    · simp [tree_union, commonCount_nil_right, keys, toList]
  | case3 lk lv lp ll lr rk rv rp rl rr swapped hp sp ih1 ih2 =>
    intro hl hr
    have hsp : sp = (node lk lv lp ll lr).tsplit rk := rfl
    rw [hsp] at ih1 ih2
    clear hsp sp
    obtain ⟨hrl, hrr, brl, brr⟩ := bstB_node.mp hr
    obtain ⟨s1, s2, s3, s4⟩ := tsplit_spec (node lk lv lp ll lr) rk hl
    have bsp1 := bstB_tsplit_less (node lk lv lp ll lr) rk hl
    have bsp2 := bstB_tsplit_greater (node lk lv lp ll lr) rk hl
    obtain ⟨m1, b1, g1, c1⟩ := ih1 brl bsp1
    obtain ⟨m2, b2, g2, c2⟩ := ih2 brr bsp2
    have hb1 : ∀ x ∈ keys (tree_union rl ((node lk lv lp ll lr).tsplit rk).1 (!swapped)).1,
        x < rk := by
      intro x hx
      rcases (m1 x).mp hx with h | h
      · exact hrl x h
      · exact s1 x h
    have hb2 : ∀ x ∈ keys (tree_union rr ((node lk lv lp ll lr).tsplit rk).2.2 (!swapped)).1,
        rk < x := by
      intro x hx
      rcases (m2 x).mp hx with h | h
      · exact hrr x h
      · exact s2 x h
    have hkL : ∀ x, x ∈ keys (node lk lv lp ll lr) ↔
        x ∈ keys ((node lk lv lp ll lr).tsplit rk).1
        ∨ (((node lk lv lp ll lr).tsplit rk).2.1.isSome ∧ x = rk)
        ∨ x ∈ keys ((node lk lv lp ll lr).tsplit rk).2.2 := by
      intro x
      rw [keys_tsplit (node lk lv lp ll lr) rk]
      cases hdup : ((node lk lv lp ll lr).tsplit rk).2.1 with
      | none => simp [optE]
      | some e =>
        have he1 := (s3 e hdup).1
        simp [optE, he1]
    refine ⟨?_, ?_, ?_, ?_⟩
    · intro x
      simp only [tree_union, if_pos hp]
      rw [keys_node]
      simp only [List.mem_append, List.mem_cons]
      rw [m1 x, m2 x]
      rw [keys_node rk rv rp rl rr]
      simp only [List.mem_append, List.mem_cons]
      rw [hkL x]
      tauto
    · simp only [tree_union, if_pos hp]
      exact bstB_node.mpr ⟨hb1, hb2, b1, b2⟩
    · intro x
      simp only [tree_union, if_pos hp]
      rcases lt_trichotomy x rk with hx | hx | hx
      · rw [alget_toList_node_lt hx hb2, g1 x,
          alget_toList_node_lt hx hrr,
          alget_tsplit_lt (node lk lv lp ll lr) rk x hl hx]
        cases swapped <;> rfl
      · rw [hx]
        rw [alget_toList_node_eq hb1, alget_toList_node_eq hrl]
        cases hdup : ((node lk lv lp ll lr).tsplit rk).2.1 with
        | none =>
          have hLnone : alget (toList (node lk lv lp ll lr)) rk = none :=
            alget_eq_none_of_not_mem _ _ (by simpa [keys] using s4 hdup)
          rw [hLnone]
          cases swapped <;> simp [hdup]
        | some e =>
          have hLsome := (s3 e hdup).2
          rw [hLsome]
          cases swapped <;> simp [hdup]
      · rw [alget_toList_node_gt hx hb1, g2 x,
          alget_toList_node_gt hx hrl,
          alget_tsplit_gt (node lk lv lp ll lr) rk x hl hx]
        cases swapped <;> rfl
    · simp only [tree_union, if_pos hp]
      have ndL : (keys (node lk lv lp ll lr)).Nodup := nodup_keys_of_bst _ hl
      have ndR : (keys (node rk rv rp rl rr)).Nodup := nodup_keys_of_bst _ hr
      rw [commonCount_comm _ _ ndL ndR]
      rw [keys_node rk rv rp rl rr, commonCount_append, commonCount_cons]
      have e1 : commonCount (keys rl) (keys (node lk lv lp ll lr))
          = commonCount (keys rl) (keys ((node lk lv lp ll lr).tsplit rk).1) := by
        apply commonCount_congr
        intro x hx
        rw [hkL x]
        constructor
        · rintro (h | ⟨hs, rfl⟩ | h)
          · exact h
          · exact absurd (hrl _ hx) (lt_irrefl _)
          · exact absurd (s2 x h) (lt_asymm (hrl x hx))
        · intro h
          exact Or.inl h
      have e2 : commonCount (keys rr) (keys (node lk lv lp ll lr))
          = commonCount (keys rr) (keys ((node lk lv lp ll lr).tsplit rk).2.2) := by
        apply commonCount_congr
        intro x hx
        rw [hkL x]
        constructor
        · rintro (h | ⟨hs, rfl⟩ | h)
          · exact absurd (s1 x h) (lt_asymm (hrr x hx))
          · exact absurd (hrr _ hx) (lt_irrefl _)
          · exact h
        · intro h
          exact Or.inr (Or.inr h)
      rw [e1, e2, c1, c2]
      cases hdup : ((node lk lv lp ll lr).tsplit rk).2.1 with
      | none =>
        have hnm : rk ∉ keys (node lk lv lp ll lr) := s4 hdup
        simp [hdup, hnm]
      | some e =>
        have hm : rk ∈ keys (node lk lv lp ll lr) := by
          rw [hkL rk]
          exact Or.inr (Or.inl ⟨by simp [hdup], rfl⟩)
        simp [hdup, hm]
        omega
  | case4 lk lv lp ll lr rk rv rp rl rr swapped hp sp ih1 ih2 =>
    intro hl hr
    have hsp : sp = (node rk rv rp rl rr).tsplit lk := rfl
    rw [hsp] at ih1 ih2
    clear hsp sp
    obtain ⟨hll, hlr, bll, blr⟩ := bstB_node.mp hl
    obtain ⟨s1, s2, s3, s4⟩ := tsplit_spec (node rk rv rp rl rr) lk hr
    have bsp1 := bstB_tsplit_less (node rk rv rp rl rr) lk hr
    have bsp2 := bstB_tsplit_greater (node rk rv rp rl rr) lk hr
    obtain ⟨m1, b1, g1, c1⟩ := ih1 bll bsp1
    obtain ⟨m2, b2, g2, c2⟩ := ih2 blr bsp2
    have hb1 : ∀ x ∈ keys (tree_union ll ((node rk rv rp rl rr).tsplit lk).1 swapped).1,
        x < lk := by
      intro x hx
      rcases (m1 x).mp hx with h | h
      · exact hll x h
      · exact s1 x h
    have hb2 : ∀ x ∈ keys (tree_union lr ((node rk rv rp rl rr).tsplit lk).2.2 swapped).1,
        lk < x := by
      intro x hx
      rcases (m2 x).mp hx with h | h
      · exact hlr x h
      · exact s2 x h
    have hkR : ∀ x, x ∈ keys (node rk rv rp rl rr) ↔
        x ∈ keys ((node rk rv rp rl rr).tsplit lk).1
        ∨ (((node rk rv rp rl rr).tsplit lk).2.1.isSome ∧ x = lk)
        ∨ x ∈ keys ((node rk rv rp rl rr).tsplit lk).2.2 := by
      intro x
      rw [keys_tsplit (node rk rv rp rl rr) lk]
      cases hdup : ((node rk rv rp rl rr).tsplit lk).2.1 with
      | none => simp [optE]
      | some e =>
        have he1 := (s3 e hdup).1
        simp [optE, he1]
    refine ⟨?_, ?_, ?_, ?_⟩
    · intro x
      simp only [tree_union, if_neg hp]
      rw [keys_node]
      simp only [List.mem_append, List.mem_cons]
      rw [m1 x, m2 x]
      rw [keys_node lk lv lp ll lr]
      simp only [List.mem_append, List.mem_cons]
      rw [hkR x]
      tauto
    · simp only [tree_union, if_neg hp]
      exact bstB_node.mpr ⟨hb1, hb2, b1, b2⟩
    · intro x
      simp only [tree_union, if_neg hp]
      rcases lt_trichotomy x lk with hx | hx | hx
      · rw [alget_toList_node_lt hx hb2, g1 x,
          alget_toList_node_lt hx hlr,
          alget_tsplit_lt (node rk rv rp rl rr) lk x hr hx]
      · rw [hx]
        rw [alget_toList_node_eq hb1, alget_toList_node_eq hll]
        cases hdup : ((node rk rv rp rl rr).tsplit lk).2.1 with
        | none =>
          have hRnone : alget (toList (node rk rv rp rl rr)) lk = none :=
            alget_eq_none_of_not_mem _ _ (by simpa [keys] using s4 hdup)
          rw [hRnone]
          cases swapped <;> simp [hdup]
        | some e =>
          have hRsome := (s3 e hdup).2
          rw [hRsome]
          cases swapped <;> simp [hdup]
      · rw [alget_toList_node_gt hx hb1, g2 x,
          alget_toList_node_gt hx hll,
          alget_tsplit_gt (node rk rv rp rl rr) lk x hr hx]
    · simp only [tree_union, if_neg hp]
      rw [keys_node lk lv lp ll lr, commonCount_append, commonCount_cons]
      have e1 : commonCount (keys ll) (keys (node rk rv rp rl rr))
          = commonCount (keys ll) (keys ((node rk rv rp rl rr).tsplit lk).1) := by
        apply commonCount_congr
        intro x hx
        rw [hkR x]
        constructor
        · rintro (h | ⟨hs, rfl⟩ | h)
          · exact h
          · exact absurd (hll _ hx) (lt_irrefl _)
          · exact absurd (s2 x h) (lt_asymm (hll x hx))
        · intro h
          exact Or.inl h
      have e2 : commonCount (keys lr) (keys (node rk rv rp rl rr))
          = commonCount (keys lr) (keys ((node rk rv rp rl rr).tsplit lk).2.2) := by
        apply commonCount_congr
        intro x hx
        rw [hkR x]
        constructor
        · rintro (h | ⟨hs, rfl⟩ | h)
          · exact absurd (s1 x h) (lt_asymm (hlr x hx))
          · exact absurd (hlr _ hx) (lt_irrefl _)
          · exact h
        · intro h
          exact Or.inr (Or.inr h)
      rw [e1, e2, c1, c2]
      cases hdup : ((node rk rv rp rl rr).tsplit lk).2.1 with
      | none =>
        have hnm : lk ∉ keys (node rk rv rp rl rr) := s4 hdup
        simp [hdup, hnm]
      | some e =>
        have hm : lk ∈ keys (node rk rv rp rl rr) := by
          rw [hkR lk]
          exact Or.inr (Or.inl ⟨by simp [hdup], rfl⟩)
        simp [hdup, hm]
        omega

end TTree

namespace TreapIterator

variable {K V : Type}

theorem stack_weight_pushLeftSpine (t : TTree K V) (st : List (K × V × TTree K V)) :
    ((pushLeftSpine t st).map (fun e => TTree.tsize e.2.2 + 1)).sum
      = TTree.tsize t + (st.map (fun e => TTree.tsize e.2.2 + 1)).sum := by
  induction t generalizing st with
  | nil => simp [pushLeftSpine, TTree.tsize]
  | node k v p l r ihl ihr =>
    rw [pushLeftSpine, ihl]
    simp [TTree.tsize]
    omega

theorem unrollStack_pushLeftSpine (t : TTree K V) (st : List (K × V × TTree K V)) :
    unrollStack (pushLeftSpine t st) = TTree.toList t ++ unrollStack st := by
  induction t generalizing st with
  | nil => simp [pushLeftSpine, TTree.toList]
  | node k v p l r ihl ihr =>
    rw [pushLeftSpine, ihl, TTree.toList]
    simp [unrollStack]

/-- Repeatedly calling `next` yields the in-order listing. -/
theorem drainFrom_eq (t : TTree K V) (st : List (K × V × TTree K V)) :
    drainFrom t st = TTree.toList t ++ unrollStack st := by
  induction t, st using drainFrom.induct with
  | case1 t st h =>
    have hu := unrollStack_pushLeftSpine t st
    rw [h] at hu
    rw [drainFrom]
    split
    · simpa [unrollStack] using hu
    · rename_i k v r rest heq
      rw [h] at heq
      cases heq
  | case2 t st k v r rest h ih =>
    have hu := unrollStack_pushLeftSpine t st
    rw [h] at hu
    rw [drainFrom]
    split
    · rename_i heq
      rw [h] at heq
      cases heq
    · rename_i k2 v2 r2 rest2 heq
      rw [h] at heq
      injection heq with h1 h2
      injection h1 with ha hb
      injection hb with hb hc
      subst ha
      subst hb
      subst hc
      subst h2
      rw [ih]
      rw [unrollStack] at hu
      exact hu

theorem drainFrom_eq_unroll (t : TTree K V) (st : List (K × V × TTree K V)) :
    drainFrom t st = unrollStack (pushLeftSpine t st) := by
  rw [drainFrom_eq, unrollStack_pushLeftSpine]

/-- One `next` step agrees with `drainFrom` (the drain really is the sequence
of `next` results). -/
theorem drainFrom_next (it : TreapIterator K V) :
    drainFrom it.current it.stack =
      match next it with
      | none => []
      | some (e, it') => e :: drainFrom it'.current it'.stack := by
  cases h : pushLeftSpine it.current it.stack with
  | nil => simp only [next, h, drainFrom_eq_unroll, unrollStack]
  | cons hd tl =>
    obtain ⟨k, v, r⟩ := hd
    simp only [next, h, drainFrom_eq_unroll, unrollStack]
    rw [unrollStack_pushLeftSpine]

end TreapIterator

namespace SkipMap

variable {K V : Type} [LinearOrder K]

theorem fst_insertNodes (l : List (K × V)) (k : K) (v : V) :
    (insertNodes l k v).1 = TTree.insList k v l := by
  induction l with
  | nil => rfl
  | cons hd tl ih =>
    obtain ⟨k', v'⟩ := hd
    by_cases h1 : k' < k
    · simp [insertNodes, TTree.insList, h1, ih]
    · by_cases h2 : k' = k
      · simp [insertNodes, TTree.insList, h1, h2]
      · simp [insertNodes, TTree.insList, h1, h2]

theorem snd_insertNodes (l : List (K × V)) (k : K) (v : V)
    (hp : List.Pairwise (fun a b => a.1 < b.1) l) :
    (insertNodes l k v).2 = (alget l k).map (fun w => (k, w)) := by
  induction l with
  | nil => rfl
  | cons hd tl ih =>
    obtain ⟨k', v'⟩ := hd
    rw [List.pairwise_cons] at hp
    by_cases h1 : k' < k
    · simp [insertNodes, alget, h1, ne_of_lt h1, ih hp.2]
    · by_cases h2 : k' = k
      · subst h2
        simp [insertNodes, h1, alget]
      · have h3 : k < k' := lt_of_le_of_ne (not_lt.mp h1) (Ne.symm h2)
        have hnm : k ∉ tl.map Prod.fst := by
          intro hmem
          obtain ⟨y, hy, hy2⟩ := List.mem_map.mp hmem
          exact absurd (hy2 ▸ hp.1 y hy) (lt_asymm h3)
        simp [insertNodes, h1, h2, alget, alget_eq_none_of_not_mem tl k hnm]

theorem fst_removeNodes (l : List (K × V)) (k : K)
    (hp : List.Pairwise (fun a b => a.1 < b.1) l) :
    (removeNodes l k).1 = TTree.delList k l := by
  induction l with
  | nil => rfl
  | cons hd tl ih =>
    obtain ⟨k', v'⟩ := hd
    rw [List.pairwise_cons] at hp
    by_cases h1 : k' < k
    · simp [removeNodes, TTree.delList, h1, ne_of_lt h1, ih hp.2]
    · by_cases h2 : k' = k
      · simp [removeNodes, TTree.delList, h1, h2]
      · have h3 : k < k' := lt_of_le_of_ne (not_lt.mp h1) (Ne.symm h2)
        have hnm : k ∉ tl.map Prod.fst := by
          intro hmem
          obtain ⟨y, hy, hy2⟩ := List.mem_map.mp hmem
          exact absurd (hy2 ▸ hp.1 y hy) (lt_asymm h3)
        simp [removeNodes, h1, h2, TTree.delList, TTree.delList_of_not_mem k tl hnm]

theorem snd_removeNodes (l : List (K × V)) (k : K)
    (hp : List.Pairwise (fun a b => a.1 < b.1) l) :
    (removeNodes l k).2 = (alget l k).map (fun w => (k, w)) := by
  induction l with
  | nil => rfl
  | cons hd tl ih =>
    obtain ⟨k', v'⟩ := hd
    rw [List.pairwise_cons] at hp
    by_cases h1 : k' < k
    · simp [removeNodes, alget, h1, ne_of_lt h1, ih hp.2]
    · by_cases h2 : k' = k
      · subst h2
        simp [removeNodes, h1, alget]

      · have h3 : k < k' := lt_of_le_of_ne (not_lt.mp h1) (Ne.symm h2)
        have hnm : k ∉ tl.map Prod.fst := by
          intro hmem
          obtain ⟨y, hy, hy2⟩ := List.mem_map.mp hmem
          exact absurd (hy2 ▸ hp.1 y hy) (lt_asymm h3)
        simp [removeNodes, h1, h2, alget, alget_eq_none_of_not_mem tl k hnm]

theorem getNodes_eq_alget (l : List (K × V)) (k : K)
    (hp : List.Pairwise (fun a b => a.1 < b.1) l) :
    getNodes l k = alget l k := by
  induction l with
  | nil => rfl
  | cons hd tl ih =>
    obtain ⟨k', v'⟩ := hd
    rw [List.pairwise_cons] at hp
    by_cases h1 : k' < k
    · simp [getNodes, alget, h1, ne_of_lt h1, ih hp.2]
    · by_cases h2 : k' = k
      · simp [getNodes, alget, h1, h2]
      · have h3 : k < k' := lt_of_le_of_ne (not_lt.mp h1) (Ne.symm h2)
        have hnm : k ∉ tl.map Prod.fst := by
          intro hmem
          obtain ⟨y, hy, hy2⟩ := List.mem_map.mp hmem
          exact absurd (hy2 ▸ hp.1 y hy) (lt_asymm h3)
        simp [getNodes, h1, h2, alget, alget_eq_none_of_not_mem tl k hnm]

end SkipMap

namespace Treap

variable {K V : Type} [LinearOrder K]

theorem Inv_new (rng : Nat → Nat) : Inv (new rng : Treap K V) :=
  ⟨rfl, rfl⟩

theorem root_insert (t : Treap K V) (k : K) (v : V) (h : Inv t) :
    TTree.toList (t.insert k v).1.root = TTree.insList k v (TTree.toList t.root) := by
  rw [insert]
  exact TTree.toList_tree_insert _ _ _ _ h.1

theorem snd_insert (t : Treap K V) (k : K) (v : V) (h : Inv t) :
    (t.insert k v).2 = (t.get k).map (fun w => (k, w)) := by
  rw [insert, get, TTree.tree_get_eq_alget _ _ h.1]
  exact TTree.snd_tree_insert _ _ _ _ h.1

theorem root_remove (t : Treap K V) (k : K) (h : Inv t) :
    TTree.toList (t.remove k).1.root = TTree.delList k (TTree.toList t.root) := by
  rw [remove]
  exact TTree.toList_tree_remove _ _ h.1

theorem snd_remove (t : Treap K V) (k : K) (h : Inv t) :
    (t.remove k).2 = (t.get k).map (fun w => (k, w)) := by
  rw [remove, get, TTree.tree_get_eq_alget _ _ h.1]
  exact TTree.snd_tree_remove _ _ h.1

theorem pairwise_toList (t : Treap K V) (h : Inv t) :
    List.Pairwise (fun a b => a.1 < b.1) (TTree.toList t.root) := by
  have := (TTree.bstB_iff_pairwise t.root).mp h.1
  rw [TTree.keys] at this
  exact List.pairwise_map.mp this

theorem Inv_insert (t : Treap K V) (k : K) (v : V) (h : Inv t) :
    Inv (t.insert k v).1 := by
  constructor
  · rw [insert]
    exact TTree.bstB_tree_insert _ _ _ _ h.1
  · have hlen := TTree.length_insList k v (TTree.toList t.root) (pairwise_toList t h)
    have hroot := root_insert t k v h
    have hsnd := TTree.snd_tree_insert t.root k v (t.rng t.cnt) h.1
    rw [insert] at hroot ⊢
    simp only at hroot ⊢
    rw [hroot, hlen, hsnd]
    by_cases hm : k ∈ (TTree.toList t.root).map Prod.fst
    · have := alget_isSome_of_mem _ _ hm
      rw [Option.isSome_iff_exists] at this
      obtain ⟨w, hw⟩ := this
      simp [hw, hm, h.2]
    · have := alget_eq_none_of_not_mem _ _ hm
      simp [this, hm, h.2]

theorem Inv_remove (t : Treap K V) (k : K) (h : Inv t) :
    Inv (t.remove k).1 := by
  constructor
  · rw [remove]
    exact TTree.bstB_tree_remove _ _ h.1
  · have hlen := TTree.length_delList k (TTree.toList t.root)
    have hroot := root_remove t k h
    have hsnd := TTree.snd_tree_remove t.root k h.1
    rw [remove] at hroot ⊢
    simp only at hroot ⊢
    rw [hroot, hlen, hsnd]
    by_cases hm : k ∈ (TTree.toList t.root).map Prod.fst
    · have := alget_isSome_of_mem _ _ hm
      rw [Option.isSome_iff_exists] at this
      obtain ⟨w, hw⟩ := this
      simp [hw, hm, h.2]
    · have := alget_eq_none_of_not_mem _ _ hm
      simp [this, hm, h.2]

theorem Inv_applyOp (t : Treap K V) (op : MapOp K V) (h : Inv t) :
    Inv (t.applyOp op) := by
  cases op with
  | ins k v => exact Inv_insert t k v h
  | del k => exact Inv_remove t k h

theorem Inv_applyOps (t : Treap K V) (ops : List (MapOp K V)) (h : Inv t) :
    Inv (t.applyOps ops) := by
  induction ops generalizing t with
  | nil => exact h
  | cons op rest ih => exact ih _ (Inv_applyOp t op h)

theorem get_insert_self (t : Treap K V) (k : K) (v : V) (h : Inv t) :
    (t.insert k v).1.get k = some v := by
  have hinv := Inv_insert t k v h
  rw [get, TTree.tree_get_eq_alget _ _ hinv.1]
  have := root_insert t k v h
  rw [insert] at this ⊢
  simp only at this ⊢
  rw [this, TTree.alget_insList_self]

theorem get_remove_self (t : Treap K V) (k : K) (h : Inv t) :
    (t.remove k).1.get k = none := by
  have hinv := Inv_remove t k h
  rw [get, TTree.tree_get_eq_alget _ _ hinv.1]
  have := root_remove t k h
  rw [remove] at this ⊢
  simp only at this ⊢
  rw [this, TTree.alget_delList_self _ _ (pairwise_toList t h)]

theorem contains_iff (t : Treap K V) (k : K) (h : Inv t) :
    t.contains k = (t.get k).isSome := by
  rw [contains, get]
  exact TTree.tree_contains_eq _ _ h.1

theorem size_insert (t : Treap K V) (k : K) (v : V) (h : Inv t) :
    (t.insert k v).1.size = if t.contains k then t.size else t.size + 1 := by
  rw [contains_iff t k h]
  have hsnd := snd_insert t k v h
  rw [insert] at hsnd ⊢
  simp only at hsnd ⊢
  rw [hsnd]
  cases hg : t.get k <;> simp [hg]

theorem size_remove (t : Treap K V) (k : K) (h : Inv t) :
    (t.remove k).1.size = if t.contains k then t.size - 1 else t.size := by
  rw [contains_iff t k h]
  have hsnd := snd_remove t k h
  rw [remove] at hsnd ⊢
  simp only at hsnd ⊢
  rw [hsnd]
  cases hg : t.get k <;> simp [hg]

end Treap

namespace SkipMap

variable {K V : Type} [LinearOrder K]

theorem sm_Inv_new (rng : Nat → Nat) : Inv (new rng : SkipMap K V) :=
  ⟨List.Pairwise.nil, rfl⟩

theorem get_eq_alget (m : SkipMap K V) (k : K) (h : Inv m) :
    m.get k = alget m.nodes k := by
  rw [get]
  exact getNodes_eq_alget _ _ h.1

theorem sm_snd_insert (m : SkipMap K V) (k : K) (v : V) (h : Inv m) :
    (m.insert k v).2 = (m.get k).map (fun w => (k, w)) := by
  rw [insert, get_eq_alget m k h]
  exact snd_insertNodes _ _ _ h.1

theorem sm_snd_remove (m : SkipMap K V) (k : K) (h : Inv m) :
    (m.remove k).2 = (m.get k).map (fun w => (k, w)) := by
  rw [remove, get_eq_alget m k h]
  exact snd_removeNodes _ _ h.1

theorem sm_Inv_insert (m : SkipMap K V) (k : K) (v : V) (h : Inv m) :
    Inv (m.insert k v).1 := by
  constructor
  · rw [insert]
    simp only [fst_insertNodes]
    exact TTree.pairwise_insList k v _ h.1
  · have hlen := TTree.length_insList k v m.nodes h.1
    have hsnd := snd_insertNodes m.nodes k v h.1
    rw [insert]
    simp only [fst_insertNodes, hlen, hsnd]
    by_cases hm : k ∈ m.nodes.map Prod.fst
    · have := alget_isSome_of_mem _ _ hm
      rw [Option.isSome_iff_exists] at this
      obtain ⟨w, hw⟩ := this
      simp [hw, hm, h.2]
    · have := alget_eq_none_of_not_mem _ _ hm
      simp [this, hm, h.2]

theorem sm_Inv_remove (m : SkipMap K V) (k : K) (h : Inv m) :
    Inv (m.remove k).1 := by
  constructor
  · rw [remove]
    simp only [fst_removeNodes _ _ h.1]
    exact (h.1.sublist (TTree.delList_sublist k m.nodes))
  · have hlen := TTree.length_delList k m.nodes
    have hsnd := snd_removeNodes m.nodes k h.1
    rw [remove]
    simp only [fst_removeNodes _ _ h.1, hlen, hsnd]
    by_cases hm : k ∈ m.nodes.map Prod.fst
    · have := alget_isSome_of_mem _ _ hm
      rw [Option.isSome_iff_exists] at this
      obtain ⟨w, hw⟩ := this
      simp [hw, hm, h.2]
    · have := alget_eq_none_of_not_mem _ _ hm
      simp [this, hm, h.2]

theorem sm_Inv_applyOp (m : SkipMap K V) (op : MapOp K V) (h : Inv m) :
    Inv (m.applyOp op) := by
  cases op with
  | ins k v => exact sm_Inv_insert m k v h
  | del k => exact sm_Inv_remove m k h

theorem sm_Inv_applyOps (m : SkipMap K V) (ops : List (MapOp K V)) (h : Inv m) :
    Inv (m.applyOps ops) := by
  induction ops generalizing m with
  | nil => exact h
  | cons op rest ih => exact ih _ (sm_Inv_applyOp m op h)

theorem sm_get_insert_self (m : SkipMap K V) (k : K) (v : V) (h : Inv m) :
    (m.insert k v).1.get k = some v := by
  have hinv := sm_Inv_insert m k v h
  rw [get_eq_alget _ k hinv]
  rw [insert]
  simp only [fst_insertNodes]
  exact TTree.alget_insList_self _ _ _

theorem sm_get_remove_self (m : SkipMap K V) (k : K) (h : Inv m) :
    (m.remove k).1.get k = none := by
  have hinv := sm_Inv_remove m k h
  rw [get_eq_alget _ k hinv]
  rw [remove]
  simp only [fst_removeNodes _ _ h.1]
  exact TTree.alget_delList_self _ _ h.1

theorem contains_key_iff (m : SkipMap K V) (k : K) :
    m.contains_key k = (m.get k).isSome := rfl

theorem sm_size_insert (m : SkipMap K V) (k : K) (v : V) (h : Inv m) :
    (m.insert k v).1.size = if m.contains_key k then m.size else m.size + 1 := by
  rw [contains_key_iff]
  have hsnd := sm_snd_insert m k v h
  rw [insert] at hsnd ⊢
  simp only at hsnd ⊢
  rw [hsnd]
  cases hg : m.get k <;> simp [hg]

theorem sm_size_remove (m : SkipMap K V) (k : K) (h : Inv m) :
    (m.remove k).1.size = if m.contains_key k then m.size - 1 else m.size := by
  rw [contains_key_iff]
  have hsnd := sm_snd_remove m k h
  rw [remove] at hsnd ⊢
  simp only at hsnd ⊢
  rw [hsnd]
  cases hg : m.get k <;> simp [hg]

end SkipMap

namespace Store

variable {K V : Type} [LinearOrder K]

theorem orElse_assoc {α : Type} (x y z : Option α) :
    ((x.orElse fun _ => y).orElse fun _ => z)
      = x.orElse (fun _ => y.orElse fun _ => z) := by
  cases x <;> rfl

theorem runsFind_cons (r : Run K V) (rest : List (Run K V)) (k : K) :
    runsFind (r :: rest) k = (alget r.entries k).orElse (fun _ => runsFind rest k) := by
  rw [runsFind]
  cases alget r.entries k <;> rfl

theorem runsFind_append (xs ys : List (Run K V)) (k : K) :
    runsFind (xs ++ ys) k = (runsFind xs k).orElse (fun _ => runsFind ys k) := by
  induction xs with
  | nil => rfl
  | cons r rest ih =>
    rw [List.cons_append, runsFind_cons, runsFind_cons, ih, orElse_assoc]

theorem mem_mergeKeepF (fuel : Nat) :
    ∀ (xs ys : List (K × Option V)) (y : K × Option V),
      y ∈ mergeKeepF fuel xs ys → y ∈ xs ∨ y ∈ ys := by
  induction fuel with
  | zero =>
    intro xs ys y h
    cases xs with
    | nil => exact Or.inr h
    | cons hd xs =>
      cases ys with
      | nil => exact Or.inl h
      | cons hd2 ys =>
        obtain ⟨k1, v1⟩ := hd
        obtain ⟨k2, v2⟩ := hd2
        simp only [mergeKeepF, List.cons_append] at h
        rcases List.mem_cons.mp h with rfl | h
        · exact Or.inl (List.mem_cons_self _ _)
        · rcases List.mem_append.mp h with h | h
          · exact Or.inl (List.mem_cons_of_mem _ h)
          · exact Or.inr h
  | succ fuel ih =>
    intro xs ys y h
    cases xs with
    | nil => exact Or.inr h
    | cons hd xs =>
      cases ys with
      | nil => exact Or.inl h
      | cons hd2 ys =>
        obtain ⟨k1, v1⟩ := hd
        obtain ⟨k2, v2⟩ := hd2
        simp only [mergeKeepF] at h
        by_cases h1 : k1 < k2
        · rw [if_pos h1] at h
          rcases List.mem_cons.mp h with rfl | h
          · exact Or.inl (List.mem_cons_self _ _)
          · rcases ih _ _ _ h with h | h
            · exact Or.inl (List.mem_cons_of_mem _ h)
            · exact Or.inr h
        · by_cases h2 : k2 < k1
          · rw [if_neg h1, if_pos h2] at h
            rcases List.mem_cons.mp h with rfl | h
            · exact Or.inr (List.mem_cons_self _ _)
            · rcases ih _ _ _ h with h | h
              · exact Or.inl h
              · exact Or.inr (List.mem_cons_of_mem _ h)
          · rw [if_neg h1, if_neg h2] at h
            rcases List.mem_cons.mp h with rfl | h
            · exact Or.inl (List.mem_cons_self _ _)
            · rcases ih _ _ _ h with h | h
              · exact Or.inl (List.mem_cons_of_mem _ h)
              · exact Or.inr (List.mem_cons_of_mem _ h)

theorem mem_mergeKeep {xs ys : List (K × Option V)} {y : K × Option V}
    (h : y ∈ mergeKeep xs ys) : y ∈ xs ∨ y ∈ ys :=
  mem_mergeKeepF _ xs ys y h

theorem pairwise_mergeKeepF (fuel : Nat) :
    ∀ (xs ys : List (K × Option V)), xs.length + ys.length ≤ fuel →
      List.Pairwise (fun a b => a.1 < b.1) xs →
      List.Pairwise (fun a b => a.1 < b.1) ys →
      List.Pairwise (fun a b => a.1 < b.1) (mergeKeepF fuel xs ys) := by
  induction fuel with
  | zero =>
    intro xs ys hf hx hy
    cases xs with
    | nil => exact hy
    | cons hd xs =>
      cases ys with
      | nil => exact hx
      | cons hd2 ys => simp at hf
  | succ fuel ih =>
    intro xs ys hf hx hy
    cases xs with
    | nil => exact hy
    | cons hd xs =>
      cases ys with
      | nil => exact hx
      | cons hd2 ys =>
        obtain ⟨k1, v1⟩ := hd
        obtain ⟨k2, v2⟩ := hd2
        simp only [List.length_cons] at hf
        rw [List.pairwise_cons] at hx hy
        simp only [mergeKeepF]
        by_cases h1 : k1 < k2
        · rw [if_pos h1, List.pairwise_cons]
          refine ⟨?_, ih _ _ (by simp; omega) hx.2 (List.pairwise_cons.mpr hy)⟩
          intro y hmem
          rcases mem_mergeKeepF _ _ _ _ hmem with h | h
          · exact hx.1 y h
          · rcases List.mem_cons.mp h with rfl | h
            · exact h1
            · exact lt_trans h1 (hy.1 y h)
        · by_cases h2 : k2 < k1
          · rw [if_neg h1, if_pos h2, List.pairwise_cons]
            refine ⟨?_, ih _ _ (by simp; omega) (List.pairwise_cons.mpr hx) hy.2⟩
            intro y hmem
            rcases mem_mergeKeepF _ _ _ _ hmem with h | h
            · rcases List.mem_cons.mp h with rfl | h
              · exact h2
              · exact lt_trans h2 (hx.1 y h)
            · exact hy.1 y h
          · have hk : k1 = k2 := le_antisymm (not_lt.mp h2) (not_lt.mp h1)
            rw [if_neg h1, if_neg h2, List.pairwise_cons]
            refine ⟨?_, ih _ _ (by omega) hx.2 hy.2⟩
            intro y hmem
            rcases mem_mergeKeepF _ _ _ _ hmem with h | h
            · exact hx.1 y h
            · exact hk ▸ hy.1 y h

theorem pairwise_mergeKeep (xs ys : List (K × Option V))
    (hx : List.Pairwise (fun a b => a.1 < b.1) xs)
    (hy : List.Pairwise (fun a b => a.1 < b.1) ys) :
    List.Pairwise (fun a b => a.1 < b.1) (mergeKeep xs ys) :=
  pairwise_mergeKeepF _ xs ys (le_refl _) hx hy

theorem alget_mergeKeepF (fuel : Nat) :
    ∀ (xs ys : List (K × Option V)) (k : K), xs.length + ys.length ≤ fuel →
      List.Pairwise (fun a b => a.1 < b.1) xs →
      List.Pairwise (fun a b => a.1 < b.1) ys →
      alget (mergeKeepF fuel xs ys) k = (alget xs k).orElse (fun _ => alget ys k) := by
  induction fuel with
  | zero =>
    intro xs ys k hf hx hy
    cases xs with
    | nil => rfl
    | cons hd xs =>
      cases ys with
      | nil =>
        obtain ⟨k1, v1⟩ := hd
        show alget ((k1, v1) :: xs) k = _
        cases alget ((k1, v1) :: xs) k <;> rfl
      | cons hd2 ys => simp at hf
  | succ fuel ih =>
    intro xs ys k hf hx hy
    cases xs with
    | nil => rfl
    | cons hd xs =>
      cases ys with
      | nil =>
        obtain ⟨k1, v1⟩ := hd
        show alget ((k1, v1) :: xs) k = _
        cases alget ((k1, v1) :: xs) k <;> rfl
      | cons hd2 ys =>
        obtain ⟨k1, v1⟩ := hd
        obtain ⟨k2, v2⟩ := hd2
        simp only [List.length_cons] at hf
        simp only [mergeKeepF]
        by_cases h1 : k1 < k2
        · rw [List.pairwise_cons] at hx
          rw [if_pos h1]
          by_cases hk : k1 = k
          · rw [alget, if_pos hk, alget, if_pos hk]
            rfl
          · have hl : alget ((k1, v1) :: mergeKeepF fuel xs ((k2, v2) :: ys)) k
                = alget (mergeKeepF fuel xs ((k2, v2) :: ys)) k := by
              rw [alget, if_neg hk]
            have hx1 : alget ((k1, v1) :: xs) k = alget xs k := by
              rw [alget, if_neg hk]
            rw [hl, hx1, ih _ _ _ (by simp; omega) hx.2 hy]
        · by_cases h2 : k2 < k1
          · rw [List.pairwise_cons] at hy
            rw [if_neg h1, if_pos h2]
            by_cases hk : k2 = k
            · have hk1 : k < k1 := hk ▸ h2
              have hnone : alget ((k1, v1) :: xs) k = none := by
                refine alget_eq_none_of_not_mem _ _ ?_
                simp only [List.map_cons, List.mem_cons]
                push_neg
                rw [List.pairwise_cons] at hx
                constructor
                · exact Ne.symm (ne_of_gt hk1)
                · intro hmem
                  obtain ⟨y, hymem, hy2⟩ := List.mem_map.mp hmem
                  exact absurd (hy2 ▸ hx.1 y hymem) (lt_asymm hk1)
              rw [hnone, alget, if_pos hk, alget, if_pos hk]
              rfl
            · have hl : alget ((k2, v2) :: mergeKeepF fuel ((k1, v1) :: xs) ys) k
                  = alget (mergeKeepF fuel ((k1, v1) :: xs) ys) k := by
                rw [alget, if_neg hk]
              have hy1 : alget ((k2, v2) :: ys) k = alget ys k := by
                rw [alget, if_neg hk]
              rw [hl, hy1, ih _ _ _ (by simp; omega) hx hy.2]
          · have hk12 : k1 = k2 := le_antisymm (not_lt.mp h2) (not_lt.mp h1)
            rw [List.pairwise_cons] at hx hy
            rw [if_neg h1, if_neg h2]
            by_cases hk : k1 = k
            · rw [alget, if_pos hk, alget, if_pos hk]
              rfl
            · have hl : alget ((k1, v1) :: mergeKeepF fuel xs ys) k
                  = alget (mergeKeepF fuel xs ys) k := by
                rw [alget, if_neg hk]
              have hx1 : alget ((k1, v1) :: xs) k = alget xs k := by
                rw [alget, if_neg hk]
              have hy1 : alget ((k2, v2) :: ys) k = alget ys k := by
                rw [alget, if_neg (hk12 ▸ hk)]
              rw [hl, hx1, hy1, ih _ _ _ (by omega) hx.2 hy.2]

theorem alget_mergeKeep (xs ys : List (K × Option V))
    (hx : List.Pairwise (fun a b => a.1 < b.1) xs)
    (hy : List.Pairwise (fun a b => a.1 < b.1) ys) (k : K) :
    alget (mergeKeep xs ys) k = (alget xs k).orElse (fun _ => alget ys k) :=
  alget_mergeKeepF _ xs ys k (le_refl _) hx hy

theorem pairwise_mergeRuns_foldl (rs : List (Run K V)) (acc : List (K × Option V))
    (hacc : List.Pairwise (fun a b => a.1 < b.1) acc)
    (hrs : ∀ r ∈ rs, List.Pairwise (fun a b => a.1 < b.1) r.entries) :
    List.Pairwise (fun a b => a.1 < b.1)
      (rs.foldl (fun acc r => mergeKeep acc r.entries) acc) := by
  induction rs generalizing acc with
  | nil => exact hacc
  | cons r rest ih =>
    rw [List.foldl_cons]
    exact ih (mergeKeep acc r.entries)
      (pairwise_mergeKeep acc r.entries hacc (hrs r (List.mem_cons_self _ _)))
      (fun r2 hm => hrs r2 (List.mem_cons_of_mem _ hm))

theorem alget_mergeRuns_foldl (rs : List (Run K V)) (acc : List (K × Option V)) (k : K)
    (hacc : List.Pairwise (fun a b => a.1 < b.1) acc)
    (hrs : ∀ r ∈ rs, List.Pairwise (fun a b => a.1 < b.1) r.entries) :
    alget (rs.foldl (fun acc r => mergeKeep acc r.entries) acc) k
      = (alget acc k).orElse (fun _ => runsFind rs k) := by
  induction rs generalizing acc with
  | nil =>
    rw [List.foldl_nil, runsFind]
    cases alget acc k <;> rfl
  | cons r rest ih =>
    rw [List.foldl_cons,
      ih (mergeKeep acc r.entries)
        (pairwise_mergeKeep acc r.entries hacc (hrs r (List.mem_cons_self _ _)))
        (fun r2 hm => hrs r2 (List.mem_cons_of_mem _ hm)),
      alget_mergeKeep acc r.entries hacc (hrs r (List.mem_cons_self _ _)) k,
      orElse_assoc, runsFind_cons]

/-- The merged Run looks up like the newest-first scan of its inputs. -/
theorem alget_mergeRuns (rs : List (Run K V)) (id : Nat) (k : K)
    (hrs : ∀ r ∈ rs, List.Pairwise (fun a b => a.1 < b.1) r.entries) :
    alget (mergeRuns rs id).entries k = runsFind rs k := by
  rw [mergeRuns]
  exact alget_mergeRuns_foldl rs [] k List.Pairwise.nil hrs

theorem pairwise_mergeRuns (rs : List (Run K V)) (id : Nat)
    (hrs : ∀ r ∈ rs, List.Pairwise (fun a b => a.1 < b.1) r.entries) :
    List.Pairwise (fun a b => a.1 < b.1) (mergeRuns rs id).entries := by
  rw [mergeRuns]
  exact pairwise_mergeRuns_foldl rs [] List.Pairwise.nil hrs

/-- The logical view as a lookup chain. -/
theorem logical_eq (s : Store K V) (k : K) :
    logical s k = (alget s.mem k).orElse (fun _ => runsFind s.runs k) := by
  rw [logical]
  cases alget s.mem k <;> rfl

/-- Lookup `get` collapses the logical view: a tombstone or an absent key is a miss. -/
theorem get_eq_logical (s : Store K V) (k : K) :
    s.get k = match logical s k with
      | some (some v) => some v
      | _ => none := by
  rw [get, logical]
  cases alget s.mem k with
  | some v => cases v <;> rfl
  | none =>
    cases runsFind s.runs k with
    | some v => cases v <;> rfl
    | none => rfl

theorem logical_flush (s : Store K V) (k : K) : logical (flush s) k = logical s k := by
  rw [flush]
  by_cases h : s.mem.isEmpty
  · simp [h]
  · simp only [h, Bool.false_eq_true, if_false]
    rw [logical_eq, logical_eq]
    simp only [alget, runsFind_cons]
    rfl

theorem logical_maybeFlush (s : Store K V) (k : K) :
    logical (maybeFlush s) k = logical s k := by
  rw [maybeFlush]
  by_cases h : s.bound ≤ s.mem.length
  · simp only [h, if_true]
    exact logical_flush s k
  · simp [h]

theorem logical_insert_self (s : Store K V) (k : K) (v : V) :
    logical (s.insert k v) k = some (some v) := by
  rw [insert, logical_maybeFlush, logical_eq]
  simp only [TTree.alget_insList_self]
  rfl

theorem logical_insert_ne (s : Store K V) (k k' : K) (v : V) (hne : k ≠ k') :
    logical (s.insert k v) k' = logical s k' := by
  rw [insert, logical_maybeFlush, logical_eq, logical_eq]
  simp only [TTree.alget_insList_ne k k' _ _ hne]

theorem logical_remove_self (s : Store K V) (k : K) :
    logical (s.remove k) k = some none := by
  rw [remove, logical_maybeFlush, logical_eq]
  simp only [TTree.alget_insList_self]
  rfl

theorem logical_remove_ne (s : Store K V) (k k' : K) (hne : k ≠ k') :
    logical (s.remove k) k' = logical s k' := by
  rw [remove, logical_maybeFlush, logical_eq, logical_eq]
  simp only [TTree.alget_insList_ne k k' _ _ hne]

theorem logical_compactSegment (s : Store K V) (i n : Nat) (k : K) (hwf : WF s) :
    logical (s.compactSegment i n) k = logical s k := by
  rw [compactSegment]
  by_cases hb : ((s.runs.drop i).take n).isEmpty
  · simp [hb]
  · simp only [hb, Bool.false_eq_true, if_false]
    rw [logical_eq, logical_eq]
    have hmembers : ∀ r ∈ (s.runs.drop i).take n,
        List.Pairwise (fun a b => a.1 < b.1) r.entries := by
      intro r hm
      exact hwf.2 r (List.mem_of_mem_drop (List.mem_of_mem_take hm))
    have hscan : runsFind
        (s.runs.take i
          ++ mergeRuns ((s.runs.drop i).take n)
              (((((s.runs.drop i).take n)).head?.map Run.id).getD 0)
            :: ((s.runs.drop i).drop n)) k
        = runsFind s.runs k := by
      rw [runsFind_append, runsFind_cons,
        alget_mergeRuns _ _ k hmembers]
      have hsplit : s.runs = s.runs.take i ++ ((s.runs.drop i).take n ++ (s.runs.drop i).drop n) := by
        rw [List.take_append_drop, List.take_append_drop]
      conv_rhs => rw [hsplit]
      rw [runsFind_append, runsFind_append]
    rw [hscan]

theorem WF_new (bound : Nat) : WF (new bound : Store K V) :=
  ⟨List.Pairwise.nil, fun r hm => absurd hm (List.not_mem_nil r)⟩

theorem WF_flush (s : Store K V) (hwf : WF s) : WF s.flush := by
  rw [flush]
  by_cases h : s.mem.isEmpty
  · simpa [h] using hwf
  · simp only [h, Bool.false_eq_true, if_false]
    refine ⟨List.Pairwise.nil, ?_⟩
    intro r hm
    rcases List.mem_cons.mp hm with rfl | hm
    · exact hwf.1
    · exact hwf.2 r hm

theorem WF_maybeFlush (s : Store K V) (hwf : WF s) : WF s.maybeFlush := by
  rw [maybeFlush]
  by_cases h : s.bound ≤ s.mem.length
  · simp only [h, if_true]
    exact WF_flush s hwf
  · simpa [h] using hwf

theorem WF_insert (s : Store K V) (k : K) (v : V) (hwf : WF s) : WF (s.insert k v) := by
  rw [insert]
  exact WF_maybeFlush _ ⟨TTree.pairwise_insList k (some v) s.mem hwf.1, hwf.2⟩

theorem WF_remove (s : Store K V) (k : K) (hwf : WF s) : WF (s.remove k) := by
  rw [remove]
  exact WF_maybeFlush _ ⟨TTree.pairwise_insList k none s.mem hwf.1, hwf.2⟩

theorem WF_compactSegment (s : Store K V) (i n : Nat) (hwf : WF s) :
    WF (s.compactSegment i n) := by
  rw [compactSegment]
  by_cases hb : ((s.runs.drop i).take n).isEmpty
  · simpa [hb] using hwf
  · simp only [hb, Bool.false_eq_true, if_false]
    refine ⟨hwf.1, ?_⟩
    intro r hm
    rcases List.mem_append.mp hm with hm | hm
    · exact hwf.2 r (List.mem_of_mem_take hm)
    · rcases List.mem_cons.mp hm with rfl | hm
      · refine pairwise_mergeRuns _ _ ?_
        intro r2 hm2
        exact hwf.2 r2 (List.mem_of_mem_drop (List.mem_of_mem_take hm2))
      · exact hwf.2 r (List.mem_of_mem_drop (List.mem_of_mem_drop hm))

theorem WF_applyOp (s : Store K V) (op : StoreOp K V) (hwf : WF s) :
    WF (s.applyOp op) := by
  cases op with
  | ins k v => exact WF_insert s k v hwf
  | del k => exact WF_remove s k hwf
  | flushOp => exact WF_flush s hwf
  | compactOp i n => exact WF_compactSegment s i n hwf

/-- After any operation, the logical view of `k` is the operation's own write
to `k` when there is one, and the previous view otherwise. -/
theorem logical_applyOp (s : Store K V) (op : StoreOp K V) (k : K) (hwf : WF s) :
    logical (s.applyOp op) k
      = (match op with
          | .ins k2 v => if k2 = k then some (some v) else none
          | .del k2 => if k2 = k then some none else none
          | _ => none).orElse (fun _ => logical s k) := by
  cases op with
  | ins k2 v =>
    by_cases hk : k2 = k
    · subst hk
      simp only [if_pos rfl]
      rw [applyOp, logical_insert_self]
      rfl
    · simp only [if_neg hk]
      rw [applyOp, logical_insert_ne s k2 k v hk]
      rfl
  | del k2 =>
    by_cases hk : k2 = k
    · subst hk
      simp only [if_pos rfl]
      rw [applyOp, logical_remove_self]
      rfl
    · simp only [if_neg hk]
      rw [applyOp, logical_remove_ne s k2 k hk]
      rfl
  | flushOp =>
    rw [applyOp, logical_flush]
    rfl
  | compactOp i n =>
    rw [applyOp, logical_compactSegment s i n k hwf]
    rfl

/-- After a sequence of operations, the logical view of `k` is the most
recent write to `k` in the sequence when there is one, else the initial
view. -/
theorem logical_applyOps (ops : List (StoreOp K V)) (s : Store K V) (k : K) (hwf : WF s) :
    logical (applyOps s ops) k
      = (lastWrite ops k).orElse (fun _ => logical s k) := by
  induction ops generalizing s with
  | nil => rfl
  | cons op rest ih =>
    rw [applyOps, List.foldl_cons]
    have h1 : applyOps (s.applyOp op) rest = rest.foldl applyOp (s.applyOp op) := rfl
    rw [← h1, ih (s.applyOp op) (WF_applyOp s op hwf),
      logical_applyOp s op k hwf, ← orElse_assoc]
    rfl

end Store

/-! ## The claims -/

/-- C7: for every in-memory ordered map usable as the Memory Stage backing
(`SkipMap`, `Treap`), on any reachable state and for every key `k` and value
`v`: `insert(k, v)` returns `None` when `k` is absent and `Some` of the
previously stored entry when `k` is present, and in both cases a subsequent
`get(k)` returns `v`; `remove(k)` returns `Some` of the stored entry when `k`
is present and `None` when it is absent, and afterwards `get(k)` returns
`None`. -/
theorem claim_C7 {K V : Type} [LinearOrder K] (rng : Nat → Nat)
    (ops : List (MapOp K V)) (k : K) (v : V) :
    ((Treap.applyOps (Treap.new rng) ops).insert k v).2
        = ((Treap.applyOps (Treap.new rng) ops).get k).map (fun w => (k, w))
      ∧ ((Treap.applyOps (Treap.new rng) ops).insert k v).1.get k = some v
      ∧ ((Treap.applyOps (Treap.new rng) ops).remove k).2
        = ((Treap.applyOps (Treap.new rng) ops).get k).map (fun w => (k, w))
      ∧ ((Treap.applyOps (Treap.new rng) ops).remove k).1.get k = none
      ∧ ((SkipMap.applyOps (SkipMap.new rng) ops).insert k v).2
        = ((SkipMap.applyOps (SkipMap.new rng) ops).get k).map (fun w => (k, w))
      ∧ ((SkipMap.applyOps (SkipMap.new rng) ops).insert k v).1.get k = some v
      ∧ ((SkipMap.applyOps (SkipMap.new rng) ops).remove k).2
        = ((SkipMap.applyOps (SkipMap.new rng) ops).get k).map (fun w => (k, w))
      ∧ ((SkipMap.applyOps (SkipMap.new rng) ops).remove k).1.get k = none := by
  have ht := Treap.Inv_applyOps (Treap.new rng) ops (Treap.Inv_new rng)
  have hm := SkipMap.sm_Inv_applyOps (SkipMap.new rng) ops (SkipMap.sm_Inv_new rng)
  exact ⟨Treap.snd_insert _ k v ht, Treap.get_insert_self _ k v ht,
    Treap.snd_remove _ k ht, Treap.get_remove_self _ k ht,
    SkipMap.sm_snd_insert _ k v hm, SkipMap.sm_get_insert_self _ k v hm,
    SkipMap.sm_snd_remove _ k hm, SkipMap.sm_get_remove_self _ k hm⟩

/-- C8: after every sequence of inserts and removes on an in-memory ordered
map (`SkipMap`, `Treap`), iterating it — including the consuming iteration
used to drain it for a flush — yields its entries in strictly increasing key
order, with no duplicate keys. -/
theorem claim_C8 {K V : Type} [LinearOrder K] (rng : Nat → Nat)
    (ops : List (MapOp K V)) :
    List.Pairwise (fun a b => a.1 < b.1)
        (TreapIterator.drainFrom
          (TreapIterator.iter (Treap.applyOps (Treap.new rng) ops)).current
          (TreapIterator.iter (Treap.applyOps (Treap.new rng) ops)).stack)
      ∧ ((TreapIterator.drainFrom
          (TreapIterator.iter (Treap.applyOps (Treap.new rng) ops)).current
          (TreapIterator.iter (Treap.applyOps (Treap.new rng) ops)).stack).map
            Prod.fst).Nodup
      ∧ List.Pairwise (fun a b => a.1 < b.1)
          (SkipMap.intoIterDrain (SkipMap.applyOps (SkipMap.new rng) ops))
      ∧ ((SkipMap.intoIterDrain (SkipMap.applyOps (SkipMap.new rng) ops)).map
            Prod.fst).Nodup := by
  have ht := Treap.Inv_applyOps (Treap.new rng) ops (Treap.Inv_new rng)
  have hm := SkipMap.sm_Inv_applyOps (SkipMap.new rng) ops (SkipMap.sm_Inv_new rng)
  have htp := Treap.pairwise_toList _ ht
  have hdrain : TreapIterator.drainFrom
      (TreapIterator.iter (Treap.applyOps (Treap.new rng) ops)).current
      (TreapIterator.iter (Treap.applyOps (Treap.new rng) ops)).stack
        = TTree.toList (Treap.applyOps (Treap.new rng) ops).root := by
    rw [TreapIterator.iter, TreapIterator.drainFrom_eq]
    simp [TreapIterator.unrollStack]
  refine ⟨?_, ?_, ?_, ?_⟩
  · rw [hdrain]; exact htp
  · rw [hdrain]; exact TTree.nodup_of_pairwise_keys htp
  · exact hm.1
  · exact TTree.nodup_of_pairwise_keys hm.1

/-- C10: for `SkipMap` and `Treap`, after every sequence of operations,
`size()` equals the number of distinct keys currently stored; inserting a new
key increases it by one, inserting an already present key leaves it unchanged,
removing a present key decreases it by one, and removing an absent key leaves
it unchanged. -/
theorem claim_C10 {K V : Type} [LinearOrder K] (rng : Nat → Nat)
    (ops : List (MapOp K V)) (k : K) (v : V) :
    (Treap.applyOps (Treap.new rng) ops).size
        = (TTree.keys (Treap.applyOps (Treap.new rng) ops).root).length
      ∧ (TTree.keys (Treap.applyOps (Treap.new rng) ops).root).Nodup
      ∧ ((Treap.applyOps (Treap.new rng) ops).insert k v).1.size
        = (if (Treap.applyOps (Treap.new rng) ops).contains k
            then (Treap.applyOps (Treap.new rng) ops).size
            else (Treap.applyOps (Treap.new rng) ops).size + 1)
      ∧ ((Treap.applyOps (Treap.new rng) ops).remove k).1.size
        = (if (Treap.applyOps (Treap.new rng) ops).contains k
            then (Treap.applyOps (Treap.new rng) ops).size - 1
            else (Treap.applyOps (Treap.new rng) ops).size)
      ∧ (SkipMap.applyOps (SkipMap.new rng) ops).size
        = ((SkipMap.applyOps (SkipMap.new rng) ops).nodes.map Prod.fst).length
      ∧ ((SkipMap.applyOps (SkipMap.new rng) ops).nodes.map Prod.fst).Nodup
      ∧ ((SkipMap.applyOps (SkipMap.new rng) ops).insert k v).1.size
        = (if (SkipMap.applyOps (SkipMap.new rng) ops).contains_key k
            then (SkipMap.applyOps (SkipMap.new rng) ops).size
            else (SkipMap.applyOps (SkipMap.new rng) ops).size + 1)
      ∧ ((SkipMap.applyOps (SkipMap.new rng) ops).remove k).1.size
        = (if (SkipMap.applyOps (SkipMap.new rng) ops).contains_key k
            then (SkipMap.applyOps (SkipMap.new rng) ops).size - 1
            else (SkipMap.applyOps (SkipMap.new rng) ops).size) := by
  have ht := Treap.Inv_applyOps (Treap.new rng) ops (Treap.Inv_new rng)
  have hm := SkipMap.sm_Inv_applyOps (SkipMap.new rng) ops (SkipMap.sm_Inv_new rng)
  have htp := Treap.pairwise_toList _ ht
  refine ⟨?_, ?_, ?_, ?_, ?_, ?_, ?_, ?_⟩
  · rw [ht.2, TTree.keys, List.length_map]
  · exact TTree.nodup_of_pairwise_keys htp
  · exact Treap.size_insert _ k v ht
  · exact Treap.size_remove _ k ht
  · rw [hm.2, List.length_map]
  · exact TTree.nodup_of_pairwise_keys hm.1
  · exact SkipMap.sm_size_insert _ k v hm
  · exact SkipMap.sm_size_remove _ k hm

/-- C9: for all treaps `l` and `r` (any states satisfying the reachable-state
invariant), `Treap::union(l, r)` contains exactly the keys of `l` together
with the keys of `r` — for every key, lookup in the union is lookup in `l`
first and otherwise in `r`, so on a key present in both the value is the one
from `l` — and its size is `l.size() + r.size()` minus the number of keys
common to both. -/
theorem claim_C9 {K V : Type} [LinearOrder K] (l r : Treap K V)
    (hl : Treap.Inv l) (hr : Treap.Inv r) :
    (∀ k, (Treap.union l r).get k = ((l.get k).orElse (fun _ => r.get k)))
    ∧ (Treap.union l r).size
      = l.size + r.size - TTree.commonCount (TTree.keys l.root) (TTree.keys r.root) := by
  obtain ⟨hmem, hbst, hget, hcnt⟩ := TTree.tree_union_spec l.root r.root false hl.1 hr.1
  constructor
  · intro k
    show TTree.tree_get (TTree.tree_union l.root r.root false).1 k = _
    rw [TTree.tree_get_eq_alget _ _ hbst, hget k]
    simp only [Bool.false_eq_true, if_false]
    rw [Treap.get, Treap.get, TTree.tree_get_eq_alget _ _ hl.1,
      TTree.tree_get_eq_alget _ _ hr.1]
  · show l.size + r.size - (TTree.tree_union l.root r.root false).2 = _
    rw [hcnt]

theorem claim_C9_witness :
    (Treap.Inv unionWitnessL ∧ Treap.Inv unionWitnessR)
    ∧ ((∀ k, (Treap.union unionWitnessL unionWitnessR).get k
          = ((unionWitnessL.get k).orElse (fun _ => unionWitnessR.get k)))
      ∧ (Treap.union unionWitnessL unionWitnessR).size
        = unionWitnessL.size + unionWitnessR.size
          - TTree.commonCount (TTree.keys unionWitnessL.root)
              (TTree.keys unionWitnessR.root)) :=
  ⟨⟨⟨by decide, by decide⟩, ⟨by decide, by decide⟩⟩,
    claim_C9 unionWitnessL unionWitnessR ⟨by decide, by decide⟩ ⟨by decide, by decide⟩⟩

/-- C4, counterexample: the claim that the engine's error type distinguishes
four kinds of failure is false — there do not even exist four errors of
pairwise distinct kinds, since `Error` has exactly the two constructors
`IOError` and `SerdeError`. -/
theorem claim_C4_counterexample :
    ¬ ∃ (e1 e2 e3 e4 : Error),
        e1.kind ≠ e2.kind ∧ e1.kind ≠ e3.kind ∧ e1.kind ≠ e4.kind
        ∧ e2.kind ≠ e3.kind ∧ e2.kind ≠ e4.kind ∧ e3.kind ≠ e4.kind := by
  rintro ⟨e1, e2, e3, e4, h12, h13, h14, h23, h24, h34⟩
  cases e1 <;> cases e2 <;> cases e3 <;>
    simp [Error.kind] at h12 h13 h23

/-- C4, amended: the engine's error type distinguishes exactly two kinds of
failure — an IO error and a serialization error — both kinds are realized,
they are distinct, and every error surfaced is one of these two. -/
theorem claim_C4 :
    (∀ e : Error, e.kind = ErrorKind.ioError ∨ e.kind = ErrorKind.serdeError)
    ∧ (Error.fromIOError 0).kind = ErrorKind.ioError
    ∧ (Error.fromSerde 0).kind = ErrorKind.serdeError
    ∧ ErrorKind.ioError ≠ ErrorKind.serdeError := by
  refine ⟨?_, rfl, rfl, by decide⟩
  intro e
  cases e <;> simp [Error.kind]

/-- C1, amended: for every sequence of inserts and removes interleaved with
flushes and with compactions of recency-contiguous Run segments, `get(k)`
returns the value supplied by the most recent insert on `k`, and a miss when
the most recent operation on `k` was a remove or `k` was never written —
regardless of how many flushes and compactions occurred.  (The unrestricted
claim, with the size-tiered `compact_once` free to merge Runs that are not
contiguous in recency, is refuted separately.) -/
theorem claim_C1 {K V : Type} [LinearOrder K] (bound : Nat)
    (ops : List (Store.StoreOp K V)) (k : K) :
    Store.get (Store.applyOps (Store.new bound) ops) k
      = match Store.lastWrite ops k with
        | some (some v) => some v
        | _ => none := by
  rw [Store.get_eq_logical,
    Store.logical_applyOps ops (Store.new bound) k (Store.WF_new bound)]
  have h0 : Store.logical (Store.new bound : Store K V) k = none := rfl
  rw [h0]
  cases Store.lastWrite ops k with
  | none => rfl
  | some w => cases w <;> rfl

/-- C1, counterexample: the claim as stated — round-trip under arbitrary
`compact_once` calls — fails.  After `c1xOps` the Runs have sizes 3, 1, 3
newest-to-oldest; the size-tiered policy buckets the two size-3 Runs
together, although the size-1 Run between them is more recent than the older
one, and merging them resurrects the overwritten value: the most recent
insert on key 5 supplied value 1, yet after the compaction `get 5` returns
the older value 0. -/
theorem claim_C1_counterexample :
    Store.lastWrite c1xOps 5 = some (some 1)
    ∧ Store.get (Store.compact_once c1xParams
        (Store.applyOps (Store.new 3) c1xOps)) 5 = some 0 := by
  constructor
  · rfl
  · rfl

/-- C2: a `remove(k)` followed by a `flush` followed by `get(k)` returns a
miss even when an older Run still holds a value for `k`; and a tombstone hit
in a Run stops the newest-to-oldest scan, shadowing every older Run. -/
theorem claim_C2 {K V : Type} [LinearOrder K] (s : Store K V) (k : K) (v : V)
    (h : ∃ r ∈ s.runs, alget r.entries k = some (some v)) :
    Store.get (Store.flush (Store.remove s k)) k = none
    ∧ ∀ (r : Run K V) (older : List (Run K V)), alget r.entries k = some none →
        Store.runsFind (r :: older) k = some none := by
  constructor
  · rw [Store.get_eq_logical, Store.logical_flush, Store.logical_remove_self]
  · intro r older hr
    rw [Store.runsFind_cons, hr]
    rfl

theorem claim_C2_witness :
    (∃ r ∈ c2wStore.runs, alget r.entries 3 = some (some 7))
    ∧ (Store.get (Store.flush (Store.remove c2wStore 3)) 3 = none
      ∧ ∀ (r : Run Nat Nat) (older : List (Run Nat Nat)),
          alget r.entries 3 = some none →
          Store.runsFind (r :: older) 3 = some none) :=
  ⟨by decide, claim_C2 c2wStore 3 7 (by decide)⟩

/-- C3, amended: merging a recency-contiguous segment of Runs into a single
Run by k-way merge (newest Run winning ties) and replacing the segment with
the merged Run, in place, preserves the logical mapping: `get` answers
exactly as before, for every key.  (The unrestricted claim — merging an
arbitrary set of Runs — is refuted separately.) -/
theorem claim_C3 {K V : Type} [LinearOrder K] (s : Store K V) (i n : Nat)
    (hwf : Store.WF s) (k : K) :
    Store.get (s.compactSegment i n) k = s.get k := by
  rw [Store.get_eq_logical, Store.get_eq_logical,
    Store.logical_compactSegment s i n k hwf]

theorem claim_C3_witness :
    Store.WF c3wStore
    ∧ Store.get (c3wStore.compactSegment 0 2) 2 = c3wStore.get 2 :=
  ⟨⟨by decide, by decide⟩, claim_C3 c3wStore 0 2 ⟨by decide, by decide⟩ 2⟩

/-- C3, counterexample: the claim as stated quantifies over arbitrary sets of
Runs.  Merging the non-contiguous set {`c3xR1`, `c3xR2`} — skipping the more
recent untouched Run `c3xU` in between — and replacing them with the output
changes the answer for key 5, which is present in merged Run `c3xR2`: the
original set answers `some 1` (from the untouched Run, which is newer than the
oldest merged Run), the compacted set answers `some 0` (the merged Run, now
scanned first, carries the stale value). -/
theorem claim_C3_counterexample :
    5 ∈ c3xR2.entries.map Prod.fst
    ∧ Store.get (⟨[], [c3xR1, c3xU, c3xR2], 3, 10⟩ : Store Nat Nat) 5 = some 1
    ∧ Store.get (⟨[], [c3xM, c3xU], 3, 10⟩ : Store Nat Nat) 5 = some 0
    ∧ Store.get (⟨[], [c3xM, c3xU], 3, 10⟩ : Store Nat Nat) 5
      ≠ Store.get (⟨[], [c3xR1, c3xU, c3xR2], 3, 10⟩ : Store Nat Nat) 5 := by
  refine ⟨by decide, rfl, rfl, by decide⟩

/-- C5: a flush that fails — or a crash — before the rename step leaves the
store unchanged: the Memory Stage keeps its un-cleared contents (the flush is
retryable) and no partial or new Run is visible in the Run Collection (the
temp file is not part of it); and running all steps is exactly `flush`. -/
theorem claim_C5 {K V : Type} [LinearOrder K] (s : Store K V) (n : Nat)
    (hn : n ≤ 1) (hne : s.mem ≠ []) :
    (Store.flushUpTo s n).store.mem = s.mem
    ∧ (Store.flushUpTo s n).store.runs = s.runs
    ∧ (Store.flushUpTo s 3).store = s.flush := by
  have hne' : s.mem.isEmpty = false := by
    cases hm : s.mem with
    | nil => exact absurd hm hne
    | cons a l => rfl
  have h3 : (Store.flushUpTo s 3).store = s.flush := by
    show (Store.flushStep (Store.flushStep (Store.flushStep ⟨s, none⟩ 0) 1) 2).store
      = s.flush
    rw [Store.flush]
    simp [Store.flushStep, hne']
  rcases Nat.le_one_iff_eq_zero_or_eq_one.mp hn with rfl | rfl
  · exact ⟨rfl, rfl, h3⟩
  · exact ⟨rfl, rfl, h3⟩

theorem claim_C5_witness :
    ((1 : Nat) ≤ 1 ∧ c5wStore.mem ≠ [])
    ∧ ((Store.flushUpTo c5wStore 1).store.mem = c5wStore.mem
      ∧ (Store.flushUpTo c5wStore 1).store.runs = c5wStore.runs
      ∧ (Store.flushUpTo c5wStore 3).store = c5wStore.flush) :=
  ⟨⟨by decide, by decide⟩, claim_C5 c5wStore 1 (by decide) (by decide)⟩

/-- C6: the concrete scenario — inserting keys 1..=200 with sequential values
under Memory Stage bound 50 produces exactly 4 flushed Runs; after
`remove 50` and one `compact_once` with `min_merge_width = 2`,
`bucket_low = 1/2`, `bucket_high = 3/2`, the similarly sized Runs are merged
into one, `get 50` misses, `get 75` returns its inserted value, and exactly
199 distinct keys are reachable. -/
theorem claim_C6 :
    c6AfterInserts.runs.length = 4
    ∧ c6Final.runs.length = 1
    ∧ c6Final.get 50 = none
    ∧ c6Final.get 75 = some 75
    ∧ (Store.reachableKeys c6Final).length = 199 := by
  refine ⟨rfl, rfl, rfl, rfl, rfl⟩

end RustCode
